import Mathlib

/-!
Verification of the text-masking pipeline in
`ModuleFolders/TextProcessor/TextProcessor.py` (class `TextProcessor`).

Texts are shallowly embedded as `List Char`.  Python regular expressions of
the module are embedded by their effective string semantics (documented at
each definition).  Batches (`Dict[str, str]`) are embedded as association
lists with opaque `Nat` keys, which preserves insertion order exactly as a
Python `dict` does.
-/

set_option autoImplicit false

namespace TextProc

/-- A Python string, embedded as its list of characters. -/
abbrev Str := List Char

/-- Python whitespace for `str.strip` / `\s` on the characters that occur in
this development (ASCII whitespace). -/
def isPySpace (c : Char) : Bool :=
  c = ' ' || c = '\t' || c = '\n' || c = '\r' || c = '\x0b' || c = '\x0c'

/-- Python `str.isdigit` on ASCII, as used by `(\d+)` and `.isdigit()`. -/
def isAsciiDigit (c : Char) : Bool :=
  '0' ≤ c && c ≤ '9'

/-- Python `str.lstrip()`. -/
def lstrip (s : Str) : Str := s.dropWhile isPySpace

/-- Python `str.rstrip()`. -/
def rstrip (s : Str) : Str := (s.reverse.dropWhile isPySpace).reverse

/-- Python `str.strip()`. -/
def pyStrip (s : Str) : Str := rstrip (lstrip s)

/-- Truthiness test `not s.strip()`: the string is empty or whitespace-only. -/
def isBlank (s : Str) : Bool := pyStrip s = []

/-- A batch `key -> text`, as consumed by `replace_all` / `restore_all`. -/
abbrev TextDict := List (Nat × Str)

/-! ### DigitalSequenceCodec (`digital_sequence_preprocessing` / `digital_sequence_recovery`)

`RE_DIGITAL_SEQ_PRE = r'^(\d+)\.'` is anchored (no MULTILINE), so it matches
exactly when the string starts with a nonempty maximal digit run followed by
a literal dot; `re.sub(..., count=1)` rewrites that single leading match and
keeps the rest of the string verbatim. -/

/-- `self.RE_DIGITAL_SEQ_PRE.sub(r'【\1】', text, count=1)`. -/
def digitalSeqPre (s : Str) : Str :=
  let ds := s.takeWhile isAsciiDigit
  let rest := s.drop ds.length
  if ds ≠ [] ∧ rest.head? = some '.' then '【' :: (ds ++ '】' :: rest.tail)
  else s

/-- `self.RE_DIGITAL_SEQ_REC.sub(r'\1.', text, count=1)` with
`RE_DIGITAL_SEQ_REC = r'^【(\d+)】'`. -/
def digitalSeqRec (s : Str) : Str :=
  if s.head? = some '【' then
    let rest := s.tail
    let ds := rest.takeWhile isAsciiDigit
    let rest2 := rest.drop ds.length
    if ds ≠ [] ∧ rest2.head? = some '】' then ds ++ '.' :: rest2.tail
    else s
  else s

/-- `digital_sequence_preprocessing`: applies the leading-ordinal rewrite to
every value of the batch (the Python method updates the dict in place; the
value-level effect is this map). -/
def digital_sequence_preprocessing (d : TextDict) : TextDict :=
  d.map fun kv => (kv.1, digitalSeqPre kv.2)

/-- `digital_sequence_recovery`: inverse rewrite on every value. -/
def digital_sequence_recovery (d : TextDict) : TextDict :=
  d.map fun kv => (kv.1, digitalSeqRec kv.2)

/-- The string starts with `<digits>.` (the guard of `RE_DIGITAL_SEQ_PRE`). -/
def startsDigitsDot (s : Str) : Bool :=
  decide (s.takeWhile isAsciiDigit ≠ [] ∧
    (s.drop (s.takeWhile isAsciiDigit).length).head? = some '.')

theorem takeWhile_append_of_all {p : Char → Bool} (ds t : Str)
    (hall : ∀ c ∈ ds, p c = true) (ht : ∀ c, t.head? = some c → p c = false) :
    (ds ++ t).takeWhile p = ds := by
  induction ds with
  | nil =>
    cases t with
    | nil => rfl
    | cons c t' =>
      simp only [List.nil_append, List.takeWhile]
      rw [ht c rfl]
  | cons a ds ih =>
    have h1 : p a = true := hall a (List.mem_cons_self a ds)
    have h2 := ih (fun c hc => hall c (List.mem_cons_of_mem a hc))
    simp [List.takeWhile, h1, h2]

theorem digitalSeqPre_of_digits (ds t : Str) (hne : ds ≠ [])
    (hd : ∀ c ∈ ds, isAsciiDigit c = true) :
    digitalSeqPre (ds ++ '.' :: t) = '【' :: (ds ++ '】' :: t) := by
  have htw : (ds ++ '.' :: t).takeWhile isAsciiDigit = ds := by
    apply takeWhile_append_of_all ds ('.' :: t) hd
    intro c hc
    simp only [List.head?, Option.some.injEq] at hc
    subst hc
    decide
  have hdrop : (ds ++ '.' :: t).drop ds.length = '.' :: t :=
    List.drop_left ds ('.' :: t)
  unfold digitalSeqPre
  simp only [htw, hdrop]
  rw [if_pos ⟨hne, rfl⟩]
  rfl

theorem digitalSeqRec_of_digits (ds t : Str) (hne : ds ≠ [])
    (hd : ∀ c ∈ ds, isAsciiDigit c = true) :
    digitalSeqRec ('【' :: (ds ++ '】' :: t)) = ds ++ '.' :: t := by
  have htw : (ds ++ '】' :: t).takeWhile isAsciiDigit = ds := by
    apply takeWhile_append_of_all ds ('】' :: t) hd
    intro c hc
    simp only [List.head?, Option.some.injEq] at hc
    subst hc
    decide
  have hdrop : (ds ++ '】' :: t).drop ds.length = '】' :: t :=
    List.drop_left ds ('】' :: t)
  unfold digitalSeqRec
  simp [List.head?, List.tail_cons, htw, hdrop, hne]

theorem digitalSeqPre_of_not_start (s : Str) (h : startsDigitsDot s = false) :
    digitalSeqPre s = s := by
  unfold startsDigitsDot at h
  unfold digitalSeqPre
  rw [if_neg]
  intro hcond
  rw [decide_eq_false_iff_not] at h
  exact h hcond

/-- C8, counterexample: the claim says `"1. Hello"` masks to `"【1】Hello"`,
but `re.sub` keeps everything after the matched `"1."` verbatim, so the space
survives and the masked text is `"【1】 Hello"`. -/
theorem C8_counterexample :
    digitalSeqPre "1. Hello".toList = "【1】 Hello".toList ∧
    digitalSeqPre "1. Hello".toList ≠ "【1】Hello".toList := by
  constructor
  · decide
  · decide

/-- C8 (amended): digital-sequence protection rewrites a leading
`<digits>.` to `【<digits>】` exactly once at the very start of the string
(text not starting with digits-then-dot is unchanged), recovery rewrites a
leading `【<digits>】` back to `<digits>.` once, and on the example:
`"1. Hello"` masks to `"【1】 Hello"` (the space after the dot is kept
verbatim) and restores back to `"1. Hello"`. -/
theorem C8_digital_sequence (s ds t : Str) (h0 : startsDigitsDot s = false)
    (hne : ds ≠ []) (hd : ∀ c ∈ ds, isAsciiDigit c = true) :
    digitalSeqPre s = s ∧
    digitalSeqPre (ds ++ '.' :: t) = '【' :: (ds ++ '】' :: t) ∧
    digitalSeqRec ('【' :: (ds ++ '】' :: t)) = ds ++ '.' :: t ∧
    digital_sequence_preprocessing [(0, "1. Hello".toList)] =
      [(0, "【1】 Hello".toList)] ∧
    digital_sequence_recovery [(0, "【1】 Hello".toList)] =
      [(0, "1. Hello".toList)] :=
  ⟨digitalSeqPre_of_not_start s h0,
   digitalSeqPre_of_digits ds t hne hd,
   digitalSeqRec_of_digits ds t hne hd,
   by decide, by decide⟩

/-- C8, witness: the amended theorem applied at concrete inputs. -/
theorem C8_digital_sequence_witness :
    digitalSeqPre "abc".toList = "abc".toList ∧
    digitalSeqPre ("42".toList ++ '.' :: "x".toList) =
      '【' :: ("42".toList ++ '】' :: "x".toList) := by
  have h := C8_digital_sequence "abc".toList "42".toList "x".toList
    (by decide) (by decide) (by decide)
  exact ⟨h.1, h.2.1⟩

/-! ### RuleCompiler (`_compile_translation_rules`)

A rule is a dict `{src, dst, regex?}`.  `re.compile` is embedded as an
abstract fallible function (a compiled pattern is opaque here; only the
control flow of `_compile_translation_rules` matters).  The Python body has
no `try`/`except`: a `re.error` raised by `re.compile` propagates out of the
method and out of `__init__`.  The walrus guard `if regex_str :=
rule.get("regex")` is a truthiness test, so an empty regex string is treated
as absent. -/

/-- A raw replacement rule `{src, dst, regex?}`. -/
structure RawRule where
  src : Str
  dst : Str
  regex : Option Str

/-- A compiled rule: the original fields plus the optional
`compiled_regex` object, embedded by its substitution action
`dst → text → result`. -/
structure CompiledRule where
  src : Str
  dst : Str
  compiledRegex : Option (Str → Str → Str)

/-- `_compile_translation_rules`.  `reCompile` embeds `re.compile`;
`none` is a raised `re.error`, which aborts the whole compilation
(the method has no exception handling). -/
def compile_translation_rules (reCompile : Str → Option (Str → Str → Str)) :
    List RawRule → Option (List CompiledRule)
  | [] => some []
  | ⟨src, dst, none⟩ :: rest =>
    (compile_translation_rules reCompile rest).map
      (fun cs => ⟨src, dst, none⟩ :: cs)
  | ⟨src, dst, some rs⟩ :: rest =>
    if rs = [] then
      (compile_translation_rules reCompile rest).map
        (fun cs => ⟨src, dst, none⟩ :: cs)
    else
      match reCompile rs with
      | none => none
      | some f =>
        (compile_translation_rules reCompile rest).map
          (fun cs => ⟨src, dst, some f⟩ :: cs)

/-- A compile function that fails exactly on the malformed pattern `"("`,
as `re.compile` does. -/
def badReCompile (s : Str) : Option (Str → Str → Str) :=
  if s = "(".toList then none else some (fun _ t => t)

/-- C4, counterexample: a rule list whose middle rule carries the malformed
pattern `"("` makes `_compile_translation_rules` abort (the `re.error`
propagates): the construction does not return normally and the remaining
well-formed rule is not compiled, contradicting the claimed skip-with-warning
behaviour. -/
theorem C4_counterexample :
    compile_translation_rules badReCompile
      [⟨"a".toList, "b".toList, some "x".toList⟩,
       ⟨"c".toList, "d".toList, some "(".toList⟩,
       ⟨"e".toList, "f".toList, some "y".toList⟩] = none := by
  rfl

/-- C4 (amended): at construction time a malformed (uncompilable) regex
pattern among the rules makes `_compile_translation_rules` abort: the
`re.compile` error propagates out of the constructor and none of the rules
are returned.  (Skip-with-warning exists only at match time, in
`_process_affixes` and `_replace_special_placeholders`.) -/
theorem C4_compile_abort (reCompile : Str → Option (Str → Str → Str))
    (rules : List RawRule) (r : RawRule) (rs : Str)
    (hr : r ∈ rules) (hre : r.regex = some rs) (hne : rs ≠ [])
    (hc : reCompile rs = none) :
    compile_translation_rules reCompile rules = none := by
  induction rules with
  | nil => cases hr
  | cons a rest ih =>
    obtain ⟨asrc, adst, areg⟩ := a
    rcases List.mem_cons.mp hr with heq | hmem
    · cases heq
      cases hre
      simp only [compile_translation_rules, if_neg hne, hc]
    · have hrest := ih hmem
      cases areg with
      | none => simp [compile_translation_rules, hrest]
      | some ars =>
        by_cases hz : ars = []
        · simp [compile_translation_rules, hz, hrest]
        · simp only [compile_translation_rules, if_neg hz]
          cases hca : reCompile ars with
          | none => rfl
          | some f => simp [hrest]

/-- C4, witness: the amended theorem applied to a concrete rule list with a
malformed middle pattern. -/
theorem C4_compile_abort_witness :
    compile_translation_rules badReCompile
      [⟨"a".toList, "b".toList, none⟩,
       ⟨"c".toList, "d".toList, some "(".toList⟩] = none :=
  C4_compile_abort badReCompile _ ⟨"c".toList, "d".toList, some "(".toList⟩
    "(".toList (by simp) rfl (by decide) (by rfl)

/-! ### PlaceholderMasker (`_replace_special_placeholders`)

A compiled masking pattern is embedded abstractly by the decomposition its
`pattern.sub(replacer, text)` call performs: the list of leftmost
non-overlapping matches, each preceded by its unmatched gap, plus the text
after the last match.  The replacer's bookkeeping (the shared
`global_match_count`, the per-entry `sakura_match_count`, the placeholder
spelling, the 50-substitution cap) is translated verbatim. -/

/-- An abstract compiled regex from `auto_compiled_patterns`, embedded by
the three query operations the module performs on it: `patStr` is
`pattern.pattern`; `decomp` is the leftmost non-overlapping match
decomposition that `pattern.sub` traverses; `matchLen` is the length of
`pattern.match(text)` at the string start (`none` when there is no match);
`sufStart` is the start index of the rightmost `finditer` match whose end
equals the string length. -/
structure RePat where
  patStr : Str
  decomp : Str → List (Str × Str) × Str
  matchLen : Str → Option Nat
  sufStart : Str → Option Nat

/-- One `{placeholder, original, pattern}` record. -/
structure PlaceholderRec where
  placeholder : Str
  original : Str
  patStr : Str

/-- Rebuilding a decomposition with every match kept verbatim (what
`pattern.sub` returns when the replacer never replaces). -/
def reassemble (d : List (Str × Str) × Str) : Str :=
  d.1.foldr (fun gm acc => gm.1 ++ gm.2 ++ acc) d.2

/-- Decimal digits of a number, for the `"[P{n}]"` token. -/
def natDigits (n : Nat) : Str := (Nat.toDigits 10 n)

/-- The numbered placeholder token `f"[P{g}]"`. -/
def placeholderNum (g : Nat) : Str := '[' :: 'P' :: natDigits g ++ [']']

/-- The body of `replacer_for_this_pattern`, iterated over the match
decomposition of one `pattern.sub` call.  `g` is `global_match_count`,
`s` is `sakura_match_count`. -/
def subRun (platform patStr : Str) :
    List (Str × Str) → Str → Nat → Nat → Str × Nat × Nat × List PlaceholderRec
  | [], tail, g, s => (tail, g, s, [])
  | (gap, m) :: rest, tail, g, s =>
    if 50 ≤ g then
      let r := subRun platform patStr rest tail g s
      (gap ++ m ++ r.1, r.2.1, r.2.2.1, r.2.2.2)
    else
      let ph := if platform = "sakura".toList then List.replicate (s + 1) '↓'
                else placeholderNum (g + 1)
      let r := subRun platform patStr rest tail (g + 1) (s + 1)
      (gap ++ ph ++ r.1, r.2.1, r.2.2.1, ⟨ph, m, patStr⟩ :: r.2.2.2)

/-- One `pattern_obj.sub(replacer_for_this_pattern, current_text)` call. -/
def applyPattern (platform : Str) (p : RePat) (text : Str) (g s : Nat) :
    Str × Nat × Nat × List PlaceholderRec :=
  let d := p.decomp text
  subRun platform p.patStr d.1 d.2 g s

/-- The per-entry pattern loop, including the
`if global_match_count >= 50: break` after each pattern. -/
def applyPatterns (platform : Str) : List RePat → Str → Nat → Nat →
    Str × Nat × Nat × List PlaceholderRec
  | [], text, g, s => (text, g, s, [])
  | p :: rest, text, g, s =>
    let r1 := applyPattern platform p text g s
    if 50 ≤ r1.2.1 then (r1.1, r1.2.1, r1.2.2.1, r1.2.2.2)
    else
      let r2 := applyPatterns platform rest r1.1 r1.2.1 r1.2.2.1
      (r2.1, r2.2.1, r2.2.2.1, r1.2.2.2 ++ r2.2.2.2)

/-- The entry loop of `_replace_special_placeholders`:
`global_match_count` is threaded across entries, `sakura_match_count`
restarts at 0 for each entry. -/
def replaceSpecialGo (platform : Str) (pats : List RePat) :
    List (Nat × Str) → Nat → TextDict × List (Nat × List PlaceholderRec)
  | [], _ => ([], [])
  | (k, text) :: rest, g =>
    let r1 := applyPatterns platform pats text g 0
    let r2 := replaceSpecialGo platform pats rest r1.2.1
    ((k, r1.1) :: r2.1, (k, r1.2.2.2) :: r2.2)

/-- `_replace_special_placeholders` (the local `global_match_count` starts
at 0 for each batch call). -/
def replace_special_placeholders (platform : Str) (d : TextDict)
    (pats : List RePat) : TextDict × List (Nat × List PlaceholderRec) :=
  replaceSpecialGo platform pats d 0

theorem subRun_count (platform patStr : Str) (pieces : List (Str × Str))
    (tail : Str) (g s : Nat) (hg : g ≤ 50) :
    (subRun platform patStr pieces tail g s).2.1 ≤ 50 ∧
    g ≤ (subRun platform patStr pieces tail g s).2.1 ∧
    (subRun platform patStr pieces tail g s).2.2.2.length + g =
      (subRun platform patStr pieces tail g s).2.1 := by
  induction pieces generalizing g s with
  | nil => refine ⟨?_, ?_, ?_⟩ <;> simp [subRun, hg]
  | cons gm rest ih =>
    obtain ⟨gap, m⟩ := gm
    by_cases h50 : 50 ≤ g
    · have := ih g s hg
      simp only [subRun, if_pos h50]
      exact ⟨this.1, this.2.1, this.2.2⟩
    · have hg1 : g + 1 ≤ 50 := Nat.lt_of_not_le h50
      have := ih (g + 1) (s + 1) hg1
      simp only [subRun, if_neg h50, List.length_cons]
      refine ⟨this.1, Nat.le_trans (Nat.le_succ g) this.2.1, ?_⟩
      omega

theorem subRun_capped (platform patStr : Str) (pieces : List (Str × Str))
    (tail : Str) (g s : Nat) (hg : 50 ≤ g) :
    subRun platform patStr pieces tail g s = (reassemble (pieces, tail), g, s, []) := by
  induction pieces with
  | nil => rfl
  | cons gm rest ih =>
    obtain ⟨gap, m⟩ := gm
    simp only [subRun, if_pos hg, ih, reassemble, List.foldr_cons]

theorem applyPatterns_count (platform : Str) (pats : List RePat)
    (text : Str) (g s : Nat) (hg : g ≤ 50) :
    (applyPatterns platform pats text g s).2.1 ≤ 50 ∧
    g ≤ (applyPatterns platform pats text g s).2.1 ∧
    (applyPatterns platform pats text g s).2.2.2.length + g =
      (applyPatterns platform pats text g s).2.1 := by
  induction pats generalizing text g s with
  | nil => refine ⟨?_, ?_, ?_⟩ <;> simp [applyPatterns, hg]
  | cons p rest ih =>
    have h1 := subRun_count platform p.patStr (p.decomp text).1 (p.decomp text).2 g s hg
    simp only [applyPatterns, applyPattern]
    by_cases h50 : 50 ≤ (subRun platform p.patStr (p.decomp text).1 (p.decomp text).2 g s).2.1
    · simp only [if_pos h50]
      exact ⟨h1.1, h1.2.1, h1.2.2⟩
    · simp only [if_neg h50]
      have h2 := ih (subRun platform p.patStr (p.decomp text).1 (p.decomp text).2 g s).1
        (subRun platform p.patStr (p.decomp text).1 (p.decomp text).2 g s).2.1
        (subRun platform p.patStr (p.decomp text).1 (p.decomp text).2 g s).2.2.1 h1.1
      refine ⟨h2.1, Nat.le_trans h1.2.1 h2.2.1, ?_⟩
      simp only [List.length_append]
      omega

theorem replaceSpecialGo_count (platform : Str) (pats : List RePat)
    (d : List (Nat × Str)) (g : Nat) (hg : g ≤ 50) :
    ((replaceSpecialGo platform pats d g).2.map
      (fun kp => kp.2.length)).sum + g ≤ 50 := by
  induction d generalizing g with
  | nil => simpa [replaceSpecialGo] using hg
  | cons kv rest ih =>
    obtain ⟨k, text⟩ := kv
    have h1 := applyPatterns_count platform pats text g 0 hg
    have h2 := ih (applyPatterns platform pats text g 0).2.1 h1.1
    simp only [replaceSpecialGo, List.map_cons, List.sum_cons]
    omega

/-- C3: across one whole batch, `_replace_special_placeholders` performs at
most 50 substitutions in total (counted over all patterns and all entries:
the recorded placeholder lists sum to at most 50 entries), and once the
global counter has reached 50, a `pattern.sub` call leaves every further
match in the remaining text and in later entries untouched (the replacer
returns each match verbatim and records nothing). -/
theorem C3_placeholder_cap (platform : Str) (pats : List RePat)
    (d : TextDict) (patStr : Str) (pieces : List (Str × Str)) (tail : Str)
    (g s : Nat) (hg : 50 ≤ g) :
    (((replace_special_placeholders platform d pats).2.map
        (fun kp => kp.2.length)).sum ≤ 50) ∧
    subRun platform patStr pieces tail g s =
      (reassemble (pieces, tail), g, s, []) := by
  constructor
  · have := replaceSpecialGo_count platform pats d 0 (by omega)
    simpa [replace_special_placeholders] using this
  · exact subRun_capped platform patStr pieces tail g s hg

/-- A concrete masking pattern matching each single character `@`
(the decomposition `pattern.sub` would traverse for such a literal). -/
def atDecomp : Str → List (Str × Str) × Str
  | [] => ([], [])
  | c :: rest =>
    let r := atDecomp rest
    if c = '@' then (([], ['@']) :: r.1, r.2)
    else
      match r.1 with
      | [] => ([], c :: r.2)
      | (gap, m) :: ps => ((c :: gap, m) :: ps, r.2)

/-- C3, witness: the cap theorem applied to a concrete batch whose single
entry contains 60 maskable `@` substrings, plus the capped-substitution
equation at `g = 50`; as a check, exactly 50 placeholder records are
produced for that entry and the last 10 matches stay unmasked in the text. -/
theorem C3_placeholder_cap_witness :
    ((((replace_special_placeholders [] [(0, List.replicate 60 '@')]
        [⟨"@".toList, atDecomp, fun _ => none, fun _ => none⟩]).2.map (fun kp => kp.2.length)).sum ≤ 50) ∧
     subRun [] "@".toList [([], ['@'])] [] 50 7 =
       (reassemble ([([], ['@'])], []), 50, 7, [])) ∧
    ((replace_special_placeholders [] [(0, List.replicate 60 '@')]
        [⟨"@".toList, atDecomp, fun _ => none, fun _ => none⟩]).2.map (fun kp => kp.2.length)).sum = 50 := by
  constructor
  · exact C3_placeholder_cap [] [⟨"@".toList, atDecomp, fun _ => none, fun _ => none⟩]
      [(0, List.replicate 60 '@')] "@".toList [([], ['@'])] [] 50 7
      (Nat.le_refl 50)
  · decide

/-! ### AffixCodec (`_process_affixes` / `_restore_affixes`)

A compiled affix pattern is embedded abstractly by the two query operations
the code performs on it: `pattern.match(current_text)` at the string start
(embedded as the length of the match, `none` when there is no match) and the
rightmost `finditer` match whose end equals the string length (embedded as
that match's start index).  A real `re` match is never longer than the
string; on a zero-length match the Python `while True` loop would never
terminate, so terminating executions only ever see nonempty matches, which
the definitions make explicit with a guard. -/

/-- One `{prefix|suffix, pattern}` record of `_process_affixes`. -/
structure AffixCode where
  frag : Str
  patStr : Str
deriving DecidableEq

/-- `''.join` over the recorded fragments. -/
def joinFrags (l : List AffixCode) : Str :=
  l.foldr (fun a acc => a.frag ++ acc) []

/-- The inner `while True` prefix loop for one pattern: repeatedly match at
the start, record the matched fragment and strip it. -/
def stripPrefixLoop (p : RePat) (s : Str) : Str × List AffixCode :=
  match p.matchLen s with
  | none => (s, [])
  | some n =>
    if h : 0 < n ∧ n ≤ s.length then
      let r := stripPrefixLoop p (s.drop n)
      (r.1, ⟨s.take n, p.patStr⟩ :: r.2)
    else (s, [])
termination_by s.length
decreasing_by
  simp only [List.length_drop]
  omega

theorem stripPrefixLoop_none (p : RePat) (s : Str)
    (hm : p.matchLen s = none) : stripPrefixLoop p s = (s, []) := by
  rw [stripPrefixLoop.eq_def, hm]

theorem stripPrefixLoop_some (p : RePat) (s : Str) (n : Nat)
    (hm : p.matchLen s = some n) (h : 0 < n ∧ n ≤ s.length) :
    stripPrefixLoop p s =
      ((stripPrefixLoop p (s.drop n)).1,
       ⟨s.take n, p.patStr⟩ :: (stripPrefixLoop p (s.drop n)).2) := by
  rw [stripPrefixLoop.eq_def, hm]
  dsimp only
  rw [dif_pos h]

theorem stripPrefixLoop_stuck (p : RePat) (s : Str) (n : Nat)
    (hm : p.matchLen s = some n) (h : ¬(0 < n ∧ n ≤ s.length)) :
    stripPrefixLoop p s = (s, []) := by
  rw [stripPrefixLoop.eq_def, hm]
  dsimp only
  rw [dif_neg h]

/-- The prefix pattern loop of `_process_affixes` (fragments are recorded
in the order they are stripped, as `current_prefixes.append` does). -/
def stripPrefixes : List RePat → Str → Str × List AffixCode
  | [], s => (s, [])
  | p :: rest, s =>
    let r := stripPrefixLoop p s
    let r2 := stripPrefixes rest r.1
    (r2.1, r.2 ++ r2.2)

/-- The inner `while made_change` suffix loop for one pattern: repeatedly
take the rightmost match ending at the string end, record it and strip it.
`current_suffixes.insert(0, ...)` keeps fragments in left-to-right text
order, which this rendering produces directly. -/
def stripSuffixLoop (p : RePat) (s : Str) : Str × List AffixCode :=
  match p.sufStart s with
  | none => (s, [])
  | some k =>
    if h : k < s.length then
      let r := stripSuffixLoop p (s.take k)
      (r.1, r.2 ++ [⟨s.drop k, p.patStr⟩])
    else (s, [])
termination_by s.length
decreasing_by
  simp only [List.length_take]
  omega

theorem stripSuffixLoop_none (p : RePat) (s : Str)
    (hm : p.sufStart s = none) : stripSuffixLoop p s = (s, []) := by
  rw [stripSuffixLoop.eq_def, hm]

theorem stripSuffixLoop_some (p : RePat) (s : Str) (k : Nat)
    (hm : p.sufStart s = some k) (h : k < s.length) :
    stripSuffixLoop p s =
      ((stripSuffixLoop p (s.take k)).1,
       (stripSuffixLoop p (s.take k)).2 ++ [⟨s.drop k, p.patStr⟩]) := by
  rw [stripSuffixLoop.eq_def, hm]
  dsimp only
  rw [dif_pos h]

theorem stripSuffixLoop_stuck (p : RePat) (s : Str) (k : Nat)
    (hm : p.sufStart s = some k) (h : ¬ k < s.length) :
    stripSuffixLoop p s = (s, []) := by
  rw [stripSuffixLoop.eq_def, hm]
  dsimp only
  rw [dif_neg h]

/-- The suffix pattern loop (later patterns strip further left, and
`insert(0, ...)` puts their fragments in front). -/
def stripSuffixes : List RePat → Str → Str × List AffixCode
  | [], s => (s, [])
  | p :: rest, s =>
    let r := stripSuffixLoop p s
    let r2 := stripSuffixes rest r.1
    (r2.1, r2.2 ++ r.2)

/-- The `if not current_text.strip():` repair block of `_process_affixes`:
when the stripped core is blank, undo one side's stripping
(`temp_prefix_str`/`temp_suffix_str` are the joined fragments, and the two
length sums are `prefix_len`/`suffix_len`). -/
def repairEmptyCore (core : Str) (pres sufs : List AffixCode) :
    Str × List AffixCode × List AffixCode :=
  if isBlank core then
    if pres ≠ [] ∧ sufs ≠ [] then
      if (pres.map (fun a => a.frag.length)).sum >
          (sufs.map (fun a => a.frag.length)).sum then
        (core ++ joinFrags sufs, pres, [])
      else (joinFrags pres ++ core, [], sufs)
    else if pres ≠ [] then (joinFrags pres ++ core, [], sufs)
    else if sufs ≠ [] then (core ++ joinFrags sufs, pres, [])
    else (core, pres, sufs)
  else (core, pres, sufs)

/-- The per-entry body of `_process_affixes`: prefix stripping, suffix
stripping, then the empty-core repair block. -/
def processAffixEntry (prefPats sufPats : List RePat) (text : Str) :
    Str × List AffixCode × List AffixCode :=
  let r1 := stripPrefixes prefPats text
  let r2 := stripSuffixes sufPats r1.1
  repairEmptyCore r2.1 r1.2 r2.2

/-- `_process_affixes` over a batch. -/
def process_affixes (d : TextDict) (prefPats sufPats : List RePat) :
    TextDict × List (Nat × List AffixCode) × List (Nat × List AffixCode) :=
  match d with
  | [] => ([], [], [])
  | (k, text) :: rest =>
    let e := processAffixEntry prefPats sufPats text
    let r := process_affixes rest prefPats sufPats
    ((k, e.1) :: r.1, (k, e.2.1) :: r.2.1, (k, e.2.2) :: r.2.2)

/-- `dict.get(key, default)` on an association list. -/
def dictGet {α : Type} (k : Nat) : List (Nat × α) → Option α
  | [] => none
  | (k2, v) :: rest => if k2 = k then some v else dictGet k rest

/-- `_restore_affixes`: per key, recorded prefix fragments in original
order + translated core + recorded suffix fragments in original order. -/
def restore_affixes (d : TextDict) (prefCodes sufCodes : List (Nat × List AffixCode)) :
    TextDict :=
  d.map fun kv =>
    (kv.1, joinFrags ((dictGet kv.1 prefCodes).getD []) ++ kv.2 ++
      joinFrags ((dictGet kv.1 sufCodes).getD []))

theorem stripPrefixLoop_spec (p : RePat) (s : Str) :
    joinFrags (stripPrefixLoop p s).2 ++ (stripPrefixLoop p s).1 = s ∧
    ∀ a ∈ (stripPrefixLoop p s).2, a.frag ≠ [] := by
  induction s using stripPrefixLoop.induct p with
  | case1 s hm => simp [stripPrefixLoop_none p s hm, joinFrags]
  | case2 s n hm h ih =>
    rw [stripPrefixLoop_some p s n hm h]
    constructor
    · have h1 := ih.1
      simp only [joinFrags, List.foldr_cons] at *
      rw [List.append_assoc, h1, List.take_append_drop]
    · intro a ha
      rcases List.mem_cons.mp ha with heq | hmem
      · subst heq
        simp only [ne_eq, List.take_eq_nil_iff]
        intro hcon
        rcases hcon with hc | hc
        · omega
        · subst hc; simp at h; omega
      · exact ih.2 a hmem
  | case3 s n hm h => simp [stripPrefixLoop_stuck p s n hm h, joinFrags]

theorem joinFrags_append (l1 l2 : List AffixCode) :
    joinFrags (l1 ++ l2) = joinFrags l1 ++ joinFrags l2 := by
  induction l1 with
  | nil => simp [joinFrags]
  | cons a l ih => simp [joinFrags, List.foldr_cons, List.append_assoc] at *; rw [ih]

theorem stripSuffixLoop_spec (p : RePat) (s : Str) :
    (stripSuffixLoop p s).1 ++ joinFrags (stripSuffixLoop p s).2 = s ∧
    ∀ a ∈ (stripSuffixLoop p s).2, a.frag ≠ [] := by
  induction s using stripSuffixLoop.induct p with
  | case1 s hm => simp [stripSuffixLoop_none p s hm, joinFrags]
  | case2 s k hm h ih =>
    rw [stripSuffixLoop_some p s k hm h]
    constructor
    · have h1 := ih.1
      simp only [joinFrags_append]
      simp only [joinFrags, List.foldr_cons, List.foldr_nil, List.append_nil]
      simp only [joinFrags] at h1
      rw [← List.append_assoc, h1, List.take_append_drop]
    · intro a ha
      rcases List.mem_append.mp ha with hmem | heq
      · exact ih.2 a hmem
      · rcases List.mem_singleton.mp heq with rfl
        simp only [ne_eq, List.drop_eq_nil_iff]
        omega
  | case3 s k hm h => simp [stripSuffixLoop_stuck p s k hm h, joinFrags]

theorem stripPrefixes_spec (ps : List RePat) (s : Str) :
    joinFrags (stripPrefixes ps s).2 ++ (stripPrefixes ps s).1 = s ∧
    ∀ a ∈ (stripPrefixes ps s).2, a.frag ≠ [] := by
  induction ps generalizing s with
  | nil => simp [stripPrefixes, joinFrags]
  | cons p rest ih =>
    have h1 := stripPrefixLoop_spec p s
    have h2 := ih (stripPrefixLoop p s).1
    simp only [stripPrefixes]
    constructor
    · rw [joinFrags_append, List.append_assoc, h2.1, h1.1]
    · intro a ha
      rcases List.mem_append.mp ha with h | h
      exacts [h1.2 a h, h2.2 a h]

theorem stripSuffixes_spec (ps : List RePat) (s : Str) :
    (stripSuffixes ps s).1 ++ joinFrags (stripSuffixes ps s).2 = s ∧
    ∀ a ∈ (stripSuffixes ps s).2, a.frag ≠ [] := by
  induction ps generalizing s with
  | nil => simp [stripSuffixes, joinFrags]
  | cons p rest ih =>
    have h1 := stripSuffixLoop_spec p s
    have h2 := ih (stripSuffixLoop p s).1
    simp only [stripSuffixes]
    constructor
    · rw [joinFrags_append, ← List.append_assoc, h2.1, h1.1]
    · intro a ha
      rcases List.mem_append.mp ha with h | h
      exacts [h2.2 a h, h1.2 a h]

theorem joinFrags_ne_nil (l : List AffixCode) (hne : l ≠ [])
    (hfr : ∀ a ∈ l, a.frag ≠ []) : joinFrags l ≠ [] := by
  cases l with
  | nil => exact absurd rfl hne
  | cons a t =>
    have := hfr a (List.mem_cons_self a t)
    simp only [joinFrags, List.foldr_cons]
    intro hcon
    rcases List.append_eq_nil.mp hcon with ⟨h1, _⟩
    exact this h1

theorem isBlank_nil : isBlank ([] : Str) = true := by decide

theorem ne_nil_of_not_blank (s : Str) (h : isBlank s = false) : s ≠ [] := by
  intro hcon
  subst hcon
  rw [isBlank_nil] at h
  cases h

theorem repairEmptyCore_recon (core : Str) (pres sufs : List AffixCode) :
    joinFrags (repairEmptyCore core pres sufs).2.1 ++
      (repairEmptyCore core pres sufs).1 ++
      joinFrags (repairEmptyCore core pres sufs).2.2 =
    joinFrags pres ++ core ++ joinFrags sufs := by
  unfold repairEmptyCore
  split_ifs <;> simp [joinFrags, List.append_assoc]

theorem repairEmptyCore_ne_nil (core : Str) (pres sufs : List AffixCode)
    (hpr : ∀ a ∈ pres, a.frag ≠ []) (hsf : ∀ a ∈ sufs, a.frag ≠ [])
    (hor : isBlank core = false ∨ pres ≠ [] ∨ sufs ≠ []) :
    (repairEmptyCore core pres sufs).1 ≠ [] := by
  unfold repairEmptyCore
  split_ifs with h1 h2 h3 h4 h5
  · intro hcon
    exact joinFrags_ne_nil sufs h2.2 hsf (List.append_eq_nil.mp hcon).2
  · intro hcon
    exact joinFrags_ne_nil pres h2.1 hpr (List.append_eq_nil.mp hcon).1
  · intro hcon
    exact joinFrags_ne_nil pres h4 hpr (List.append_eq_nil.mp hcon).1
  · intro hcon
    exact joinFrags_ne_nil sufs h5 hsf (List.append_eq_nil.mp hcon).2
  · rcases hor with h | h | h
    · rw [h1] at h; cases h
    · exact absurd h4 (by simpa using h)
    · exact absurd h5 (by simpa using h)
  · exact ne_nil_of_not_blank core (by simpa using h1)

/-- C7: for every entry whose text is not empty/whitespace-only, the
structural affix codec hands translation a non-empty core, the recorded
prefix fragments + core + suffix fragments reconstruct the pre-stripping
text, `_restore_affixes` reproduces it, and the empty-core repair block
undoes exactly one side's stripping: the suffix side when the total
stripped prefix length exceeds the total stripped suffix length, otherwise
the prefix side, and the only stripped side when just one side was
stripped. -/
theorem C7_affix_guard (prefPats sufPats : List RePat) (k : Nat) (text : Str)
    (hnb : isBlank text = false) :
    (processAffixEntry prefPats sufPats text).1 ≠ [] ∧
    joinFrags (processAffixEntry prefPats sufPats text).2.1 ++
      (processAffixEntry prefPats sufPats text).1 ++
      joinFrags (processAffixEntry prefPats sufPats text).2.2 = text ∧
    restore_affixes (process_affixes [(k, text)] prefPats sufPats).1
      (process_affixes [(k, text)] prefPats sufPats).2.1
      (process_affixes [(k, text)] prefPats sufPats).2.2 = [(k, text)] ∧
    (∀ core pres sufs, isBlank core = true → pres ≠ [] → sufs ≠ [] →
      (pres.map (fun a => a.frag.length)).sum >
        (sufs.map (fun a => a.frag.length)).sum →
      repairEmptyCore core pres sufs = (core ++ joinFrags sufs, pres, [])) ∧
    (∀ core pres sufs, isBlank core = true → pres ≠ [] → sufs ≠ [] →
      ¬ (pres.map (fun a => a.frag.length)).sum >
        (sufs.map (fun a => a.frag.length)).sum →
      repairEmptyCore core pres sufs = (joinFrags pres ++ core, [], sufs)) ∧
    (∀ core pres sufs, isBlank core = true → pres ≠ [] → sufs = [] →
      repairEmptyCore core pres sufs = (joinFrags pres ++ core, [], sufs)) ∧
    (∀ core pres sufs, isBlank core = true → pres = [] → sufs ≠ [] →
      repairEmptyCore core pres sufs = (core ++ joinFrags sufs, pres, [])) := by
  have hp := stripPrefixes_spec prefPats text
  have hs := stripSuffixes_spec sufPats (stripPrefixes prefPats text).1
  have hor : isBlank (stripSuffixes sufPats (stripPrefixes prefPats text).1).1 = false ∨
      (stripPrefixes prefPats text).2 ≠ [] ∨
      (stripSuffixes sufPats (stripPrefixes prefPats text).1).2 ≠ [] := by
    cases hb : isBlank (stripSuffixes sufPats (stripPrefixes prefPats text).1).1 with
    | false => exact Or.inl rfl
    | true =>
      by_cases hpe : (stripPrefixes prefPats text).2 = []
      · by_cases hse : (stripSuffixes sufPats (stripPrefixes prefPats text).1).2 = []
        · exfalso
          have h1 : (stripPrefixes prefPats text).1 = text := by
            have := hp.1
            rw [hpe] at this
            simpa [joinFrags] using this
          have h2 : (stripSuffixes sufPats (stripPrefixes prefPats text).1).1 =
              (stripPrefixes prefPats text).1 := by
            have := hs.1
            rw [hse] at this
            simpa [joinFrags] using this
          rw [h2, h1] at hb
          rw [hb] at hnb
          cases hnb
        · exact Or.inr (Or.inr hse)
      · exact Or.inr (Or.inl hpe)
  have hne : (processAffixEntry prefPats sufPats text).1 ≠ [] := by
    simp only [processAffixEntry]
    exact repairEmptyCore_ne_nil _ _ _ hp.2 hs.2 hor
  have hrecon : joinFrags (processAffixEntry prefPats sufPats text).2.1 ++
      (processAffixEntry prefPats sufPats text).1 ++
      joinFrags (processAffixEntry prefPats sufPats text).2.2 = text := by
    simp only [processAffixEntry]
    rw [repairEmptyCore_recon]
    rw [List.append_assoc, hs.1, hp.1]
  refine ⟨hne, hrecon, ?_, ?_, ?_, ?_, ?_⟩
  · simp [process_affixes, restore_affixes, dictGet]
    simpa [List.append_assoc] using hrecon
  · intro core pres sufs hb hpe hse hlen
    simp [repairEmptyCore, hb, hpe, hse, hlen]
  · intro core pres sufs hb hpe hse hlen
    simp [repairEmptyCore, hb, hpe, hse, hlen]
  · intro core pres sufs hb hpe hse
    simp [repairEmptyCore, hb, hpe, hse]
  · intro core pres sufs hb hpe hse
    simp [repairEmptyCore, hb, hpe, hse]

/-- A concrete prefix pattern for the witness: matches the literal `ab`
at the string start. -/
def abPat : RePat :=
  ⟨"ab".toList, fun s => ([], s),
   fun s => if s.take 2 = ['a', 'b'] then some 2 else none,
   fun _ => none⟩

/-- C7, witness: the guard theorem applied at a concrete entry `"ab!x"`,
whose prefix `"ab"` is stripped and reattached by `_restore_affixes`. -/
theorem C7_affix_guard_witness :
    (processAffixEntry [abPat] [abPat] "ab!x".toList).1 ≠ [] ∧
    restore_affixes (process_affixes [(3, "ab!x".toList)] [abPat] [abPat]).1
      (process_affixes [(3, "ab!x".toList)] [abPat] [abPat]).2.1
      (process_affixes [(3, "ab!x".toList)] [abPat] [abPat]).2.2 =
      [(3, "ab!x".toList)] := by
  have h := C7_affix_guard [abPat] [abPat] 3 "ab!x".toList (by decide)
  exact ⟨h.1, h.2.2.1⟩

/-! ### String primitives: `str.split('\n')`, `'\n'.join`, substring search -/

/-- Python `text.split('\n')`. -/
def splitNl : Str → List Str
  | [] => [[]]
  | c :: rest =>
    if c = '\n' then [] :: splitNl rest
    else
      match splitNl rest with
      | [] => [[c]]
      | piece :: more => (c :: piece) :: more

/-- Python `'\n'.join(pieces)`. -/
def joinNl : List Str → Str
  | [] => []
  | l :: ls =>
    match ls with
    | [] => l
    | _ :: _ => l ++ '\n' :: joinNl ls

theorem splitNl_ne_nil (s : Str) : splitNl s ≠ [] := by
  induction s with
  | nil => simp [splitNl]
  | cons c rest ih =>
    simp only [splitNl]
    by_cases hc : c = '\n'
    · simp [hc]
    · rw [if_neg hc]
      cases hs : splitNl rest with
      | nil => simp
      | cons piece more => simp

theorem joinNl_splitNl (s : Str) : joinNl (splitNl s) = s := by
  induction s with
  | nil => rfl
  | cons c rest ih =>
    simp only [splitNl]
    by_cases hc : c = '\n'
    · rw [if_pos hc, hc]
      cases hs : splitNl rest with
      | nil => exact absurd hs (splitNl_ne_nil rest)
      | cons piece more =>
        rw [hs] at ih
        show [] ++ '\n' :: joinNl (piece :: more) = '\n' :: rest
        rw [List.nil_append, ih]
    · rw [if_neg hc]
      cases hs : splitNl rest with
      | nil => exact absurd hs (splitNl_ne_nil rest)
      | cons piece more =>
        rw [hs] at ih
        cases more with
        | nil =>
          simp only [joinNl] at ih ⊢
          rw [ih]
        | cons p2 m2 =>
          simp only [joinNl] at ih ⊢
          rw [List.cons_append, ih]

theorem splitNl_no_nl (s : Str) : ∀ l ∈ splitNl s, '\n' ∉ l := by
  induction s with
  | nil => intro l hl; simp [splitNl] at hl; simp [hl]
  | cons c rest ih =>
    intro l hl
    simp only [splitNl] at hl
    by_cases hc : c = '\n'
    · rw [if_pos hc] at hl
      rcases List.mem_cons.mp hl with h | h
      · simp [h]
      · exact ih l h
    · rw [if_neg hc] at hl
      cases hs : splitNl rest with
      | nil => exact absurd hs (splitNl_ne_nil rest)
      | cons piece more =>
        rw [hs] at hl
        rcases List.mem_cons.mp hl with h | h
        · subst h
          intro hmem
          rcases List.mem_cons.mp hmem with h | h
          · exact hc h.symm
          · exact ih piece (hs ▸ List.mem_cons_self piece more) h
        · exact ih l (hs ▸ List.mem_cons_of_mem piece h)

theorem splitNl_joinNl (L : List Str) (hne : L ≠ [])
    (hnl : ∀ l ∈ L, '\n' ∉ l) : splitNl (joinNl L) = L := by
  induction L with
  | nil => exact absurd rfl hne
  | cons l ls ih =>
    cases ls with
    | nil =>
      simp only [joinNl]
      have hl := hnl l (List.mem_cons_self l [])
      clear ih hne hnl
      induction l with
      | nil => rfl
      | cons c cs ihc =>
        have hc : c ≠ '\n' := fun h => hl (h ▸ List.mem_cons_self c cs)
        have hcs : '\n' ∉ cs := fun h => hl (List.mem_cons_of_mem c h)
        simp only [splitNl, if_neg hc, ihc hcs]
    | cons l2 ls2 =>
      have hstep : joinNl (l :: l2 :: ls2) = l ++ '\n' :: joinNl (l2 :: ls2) := rfl
      rw [hstep]
      have hl := hnl l (List.mem_cons_self l (l2 :: ls2))
      have hrest : splitNl (joinNl (l2 :: ls2)) = l2 :: ls2 :=
        ih (by simp) (fun x hx => hnl x (List.mem_cons_of_mem l hx))
      clear ih hne hnl hstep
      induction l with
      | nil => simp [splitNl, hrest]
      | cons c cs ihc =>
        have hc : c ≠ '\n' := fun h => hl (h ▸ List.mem_cons_self c cs)
        have hcs : '\n' ∉ cs := fun h => hl (List.mem_cons_of_mem c h)
        simp only [List.cons_append, splitNl, if_neg hc, List.append_eq]
        rw [ihc hcs]

theorem mem_joinNl_of_mem (L : List Str) (l : Str) (x : Char)
    (hl : l ∈ L) (hx : x ∈ l) : x ∈ joinNl L := by
  induction L with
  | nil => cases hl
  | cons a as ih =>
    rcases List.mem_cons.mp hl with h | h
    · subst h
      cases as with
      | nil => exact hx
      | cons b bs => exact List.mem_append.mpr (Or.inl hx)
    · cases as with
      | nil => cases h
      | cons b bs =>
        have := ih h
        exact List.mem_append.mpr (Or.inr (List.mem_cons_of_mem '\n' this))

theorem mem_of_mem_splitNl (s : Str) (l : Str) (x : Char)
    (hl : l ∈ splitNl s) (hx : x ∈ l) : x ∈ s := by
  have := mem_joinNl_of_mem (splitNl s) l x hl hx
  rwa [joinNl_splitNl] at this

/-- Python `needle in haystack` (substring containment). -/
def containsSub (needle : Str) : Str → Bool
  | [] => needle.isEmpty
  | c :: rest => needle.isPrefixOf (c :: rest) || containsSub needle rest

/-! ### `_remove_comments` -/

/-- `line.split('//')[0]`: the part of a line before the first `//`
(the guard `if '//' in line` in the source is redundant with this). -/
def takeBeforeSlashSlash : Str → Str
  | [] => []
  | c :: rest =>
    if c = '/' ∧ rest.head? = some '/' then []
    else c :: takeBeforeSlashSlash rest

/-- Everything after the first `*/` (`none` when there is no `*/`). -/
def dropThroughClose : Str → Option Str
  | [] => none
  | c :: rest =>
    if c = '*' ∧ rest.head? = some '/' then some rest.tail
    else dropThroughClose rest

theorem dropThroughClose_step (c : Char) (rest : Str)
    (h : ¬(c = '*' ∧ rest.head? = some '/')) :
    dropThroughClose (c :: rest) = dropThroughClose rest := by
  simp only [dropThroughClose, if_neg h]

theorem dropThroughClose_length (s r : Str) (h : dropThroughClose s = some r) :
    r.length < s.length := by
  induction s with
  | nil => cases h
  | cons c rest ih =>
    by_cases hstar : c = '*' ∧ rest.head? = some '/'
    · obtain ⟨hc, hh⟩ := hstar
      subst hc
      cases rest with
      | nil => cases hh
      | cons c2 rest2 =>
        simp only [List.head?, Option.some.injEq] at hh
        subst hh
        have h2 : rest2 = r := by
          simpa [dropThroughClose] using h
        rw [← h2]
        simp only [List.length_cons]
        omega
    · rw [dropThroughClose_step c rest hstar] at h
      exact Nat.lt_trans (ih h) (by simp)

theorem dropThroughClose_subset (s r : Str) (h : dropThroughClose s = some r) :
    ∀ x ∈ r, x ∈ s := by
  induction s with
  | nil => cases h
  | cons c rest ih =>
    intro x hx
    by_cases hstar : c = '*' ∧ rest.head? = some '/'
    · obtain ⟨hc, hh⟩ := hstar
      subst hc
      cases rest with
      | nil => cases hh
      | cons c2 rest2 =>
        simp only [List.head?, Option.some.injEq] at hh
        subst hh
        have h2 : rest2 = r := by
          simpa [dropThroughClose] using h
        rw [← h2] at hx
        exact List.mem_cons_of_mem _ (List.mem_cons_of_mem _ hx)
    · rw [dropThroughClose_step c rest hstar] at h
      exact List.mem_cons_of_mem c (ih h x hx)

/-- `re.sub(r'/\*.*?\*/', '', result, flags=re.DOTALL)`: remove each
leftmost-shortest block comment; a `/*` with no later `*/` stays verbatim
(the non-greedy pattern then never matches). -/
def removeBlockCommentsF : Nat → Str → Str
  | 0, s => s
  | _ + 1, [] => []
  | fuel + 1, c :: rest =>
    if c = '/' ∧ rest.head? = some '*' then
      match dropThroughClose rest.tail with
      | some rest2 => removeBlockCommentsF fuel rest2
      | none => c :: rest
    else c :: removeBlockCommentsF fuel rest

def removeBlockComments (s : Str) : Str := removeBlockCommentsF s.length s

/-- `_remove_comments`: strip `//` line comments per line, rejoin, then
strip `/* ... */` block comments (the `#` variant is commented out in the
source). -/
def remove_comments (s : Str) : Str :=
  removeBlockComments (joinNl ((splitNl s).map takeBeforeSlashSlash))

/-! ### TagCodec: the `RE_MULTI_TAG_PATTERN = r'(<[^>]+>)'` scanner

`finditer` yields the leftmost non-overlapping matches: from each `<`, the
greedy `[^>]+` runs to the next `>`, which must exist and be at least one
character away.  `findTags` returns each match paired with the unmatched gap
before it, plus the text after the last match (the same decomposition that
the code rebuilds with `match.start()`/`match.end()` slices). -/

/-- Split at the first `>`: `some (before, after)` with
`before ++ '>' :: after = s` and no `>` in `before`. -/
def splitAtGt : Str → Option (Str × Str)
  | [] => none
  | c :: rest =>
    if c = '>' then some ([], rest)
    else (splitAtGt rest).map (fun pr => (c :: pr.1, pr.2))

theorem splitAtGt_spec (s : Str) (mid after : Str)
    (h : splitAtGt s = some (mid, after)) :
    mid ++ '>' :: after = s ∧ '>' ∉ mid := by
  induction s generalizing mid after with
  | nil => cases h
  | cons c rest ih =>
    simp only [splitAtGt] at h
    by_cases hc : c = '>'
    · rw [if_pos hc] at h
      simp only [Option.some.injEq, Prod.mk.injEq] at h
      obtain ⟨h1, h2⟩ := h
      subst h1; subst h2; subst hc
      simp
    · rw [if_neg hc] at h
      cases hg : splitAtGt rest with
      | none => rw [hg] at h; cases h
      | some pr =>
        rw [hg] at h
        simp only [Option.map_some', Option.some.injEq, Prod.mk.injEq] at h
        obtain ⟨h1, h2⟩ := h
        obtain ⟨m2, a2⟩ := pr
        have hspec := ih m2 a2 hg
        subst h1; subst h2
        constructor
        · rw [List.cons_append, hspec.1]
        · intro hmem
          rcases List.mem_cons.mp hmem with hh | hh
          · exact hc hh.symm
          · exact hspec.2 hh

theorem splitAtGt_after_length (s : Str) (mid after : Str)
    (h : splitAtGt s = some (mid, after)) : after.length < s.length := by
  have := (splitAtGt_spec s mid after h).1
  rw [← this]
  simp only [List.length_append, List.length_cons]
  omega

/-- A gap character is prepended to the gap of the first match, or to the
trailing text when there is no match. -/
def prependGap (c : Char) (r : List (Str × Str) × Str) :
    List (Str × Str) × Str :=
  match r.1 with
  | [] => ([], c :: r.2)
  | (gap, m) :: ps => ((c :: gap, m) :: ps, r.2)

/-- The `finditer` scanner for `(<[^>]+>)`, with fuel (one unit per
consumed character). -/
def findTagsF : Nat → Str → List (Str × Str) × Str
  | 0, s => ([], s)
  | _ + 1, [] => ([], [])
  | fuel + 1, c :: rest =>
    if c = '<' then
      match splitAtGt rest with
      | some (mid, after) =>
        if mid = [] then prependGap c (findTagsF fuel rest)
        else (([], c :: (mid ++ ['>'])) :: (findTagsF fuel after).1,
              (findTagsF fuel after).2)
      | none => ([], c :: rest)
    else prependGap c (findTagsF fuel rest)

/-- `list(self.RE_MULTI_TAG_PATTERN.finditer(text))`, as the gap/match
decomposition. -/
def findTags (s : Str) : List (Str × Str) × Str := findTagsF s.length s

theorem reassemble_prependGap (c : Char) (r : List (Str × Str) × Str) :
    reassemble (prependGap c r) = c :: reassemble r := by
  obtain ⟨ps, tail⟩ := r
  cases ps with
  | nil => rfl
  | cons gm ps2 =>
    obtain ⟨gap, m⟩ := gm
    simp [prependGap, reassemble]

theorem reassemble_findTagsF (fuel : Nat) (s : Str) (hf : s.length ≤ fuel) :
    reassemble (findTagsF fuel s) = s := by
  induction fuel generalizing s with
  | zero =>
    have : s = [] := List.length_eq_zero.mp (Nat.le_zero.mp hf)
    subst this
    rfl
  | succ fuel ih =>
    cases s with
    | nil => rfl
    | cons c rest =>
      simp only [findTagsF]
      by_cases hc : c = '<'
      · rw [if_pos hc]
        cases hg : splitAtGt rest with
        | none => simp [reassemble]
        | some pr =>
          obtain ⟨mid, after⟩ := pr
          dsimp only
          by_cases hm : mid = []
          · rw [if_pos hm]
            rw [reassemble_prependGap]
            rw [ih rest (by simpa using Nat.le_of_succ_le_succ (by simpa using hf))]
          · rw [if_neg hm]
            have hlen : after.length ≤ fuel := by
              have := splitAtGt_after_length rest mid after hg
              simp only [List.length_cons] at hf
              omega
            have hrec := ih after hlen
            simp only [reassemble, List.foldr_cons] at hrec ⊢
            rw [hrec, List.nil_append]
            have := (splitAtGt_spec rest mid after hg).1
            rw [hc]
            rw [List.cons_append, List.append_assoc]
            simp only [List.singleton_append]
            rw [this]
      · rw [if_neg hc]
        rw [reassemble_prependGap]
        rw [ih rest (by simpa using Nat.le_of_succ_le_succ (by simpa using hf))]

theorem reassemble_findTags (s : Str) : reassemble (findTags s) = s :=
  reassemble_findTagsF s.length s (Nat.le_refl _)

theorem findTagsF_no_lt (fuel : Nat) (s : Str) (h : '<' ∉ s) :
    findTagsF fuel s = ([], s) := by
  induction fuel generalizing s with
  | zero => rfl
  | succ fuel ih =>
    cases s with
    | nil => rfl
    | cons c rest =>
      have hc : c ≠ '<' := fun hh => h (hh ▸ List.mem_cons_self c rest)
      have hrest : '<' ∉ rest := fun hh => h (List.mem_cons_of_mem c hh)
      simp only [findTagsF, if_neg hc, ih rest hrest, prependGap]

theorem findTags_no_lt (s : Str) (h : '<' ∉ s) : findTags s = ([], s) :=
  findTagsF_no_lt s.length s h

/-! ### Tag classification and the single and multi tag codecs -/

/-- `[^:>]` (a tag-name character). -/
def notColonGt (c : Char) : Bool := !(c == ':') && !(c == '>')

/-- `RE_COLON_TAG_PATTERN = r'^(<[^:>]+:)(.*?)(>)$'` with DOTALL, matched
against a string with no trailing newline: the name runs to the first `:`
(which must come before any `>`), the final character must be `>`, and the
content is everything in between.  Returns
`some (tag_prefix, tag_content, tag_suffix)`. -/
def colonTagMatch (s : Str) : Option (Str × Str × Str) :=
  match s with
  | '<' :: rest =>
    let name := rest.takeWhile notColonGt
    if name = [] then none
    else
      match rest.drop name.length with
      | ':' :: body =>
        if body.getLast? = some '>' then
          some ('<' :: (name ++ [':']), body.dropLast, ['>'])
        else none
      | _ => none
  | _ => none

/-- `RE_SIMPLE_TAG_PATTERN = r'^(<[^:>]+>)$'`: the whole string is `<name>`
with a nonempty name containing no `:` or `>`. -/
def simpleTagMatch (s : Str) : Option Str :=
  match s with
  | '<' :: rest =>
    let name := rest.takeWhile notColonGt
    if name ≠ [] ∧ rest.drop name.length = ['>'] then some s else none
  | _ => none

/-- Leading whitespace: `text[:len(text) - len(text.lstrip())]`. -/
def leadWsOf (s : Str) : Str := s.takeWhile isPySpace

/-- Trailing whitespace: `text[len(text.rstrip()):]`. -/
def trailWsOf (s : Str) : Str := (s.reverse.takeWhile isPySpace).reverse

inductive TagKind
  | colon
  | simple
deriving DecidableEq

/-- The `single_tag` record of `_process_single_tag_content` (unused fields
of the other kind are empty). -/
structure SingleTagInfo where
  kind : TagKind
  tagPre : Str
  tagSuf : Str
  fullTag : Str
  leadWs : Str
  trailWs : Str
  contentLeadWs : Str
  contentTrailWs : Str
deriving DecidableEq

/-- One entry of `tag_infos` in the `multiple_tags` record. -/
structure MultiTagEntry where
  index : Nat
  kind : TagKind
  tagPre : Str
  tagSuf : Str
  fullTag : Str
  contentLeadWs : Str
  contentTrailWs : Str
deriving DecidableEq

/-- The `tag_info` union: `single_tag` or `multiple_tags` (with
`tag_infos`, `separators`, `tag_count`). -/
inductive TagInfo
  | single (info : SingleTagInfo)
  | multiple (entries : List MultiTagEntry) (separators : List Str)
      (tagCount : Nat)
deriving DecidableEq

/-- `_is_single_tag_only` (re-removes comments when a comment marker is
still present, as the source does). -/
def is_single_tag_only (text : Str) : Bool :=
  let t := if containsSub ['/', '/'] text || containsSub ['#'] text ||
              containsSub ['/', '*'] text then remove_comments text else text
  let ts := pyStrip t
  if ts.head? = some '<' ∧ ts.getLast? = some '>' then
    match findTags ts with
    | ([(gap, _tag)], tail) => decide (gap = [] ∧ tail = [])
    | _ => false
  else false

/-- `_process_single_tag_content`. -/
def process_single_tag_content (text : Str) : Str × Option TagInfo :=
  let twc := remove_comments text
  if ¬ is_single_tag_only twc then (text, none)
  else
    let ts := pyStrip twc
    match colonTagMatch ts with
    | some (tagPre, tagContent, tagSuf) =>
      (pyStrip tagContent,
       some (.single ⟨.colon, tagPre, tagSuf, [], leadWsOf twc, trailWsOf twc,
         leadWsOf tagContent, trailWsOf tagContent⟩))
    | none =>
      match simpleTagMatch ts with
      | some full =>
        ([], some (.single ⟨.simple, [], [], full, leadWsOf twc, trailWsOf twc,
          [], []⟩))
      | none => (text, none)

/-- `'\n===TAG_SEPARATOR===\n'`. -/
def tagSepLit : Str := "\n===TAG_SEPARATOR===\n".toList

/-- The extraction loop of `_process_multiple_tags_only` over the match
decomposition.  `pending` is the text between `last_end` and the current
match's gap (nonempty only after a tag that matched neither tag regex,
because the loop's `continue` skips the `last_end` update).  Returns
`(tag_infos, extracted_contents, separators, final pending)`. -/
def mtagsLoop : List (Str × Str) → Str → Nat →
    List MultiTagEntry × List Str × List Str × Str
  | [], pending, _ => ([], [], [], pending)
  | (gap, tag) :: rest, pending, i =>
    let sep := pending ++ gap
    match colonTagMatch tag with
    | some (tagPre, tagContent, tagSuf) =>
      let r := mtagsLoop rest [] (i + 1)
      (⟨i, .colon, tagPre, tagSuf, [], leadWsOf tagContent,
         trailWsOf tagContent⟩ :: r.1,
       pyStrip tagContent :: r.2.1, sep :: r.2.2.1, r.2.2.2)
    | none =>
      match simpleTagMatch tag with
      | some full =>
        let r := mtagsLoop rest [] (i + 1)
        (⟨i, .simple, [], [], full, [], []⟩ :: r.1,
         [] :: r.2.1, sep :: r.2.2.1, r.2.2.2)
      | none =>
        let r := mtagsLoop rest (sep ++ tag) (i + 1)
        (r.1, r.2.1, sep :: r.2.2.1, r.2.2.2)

/-- `'\n===TAG_SEPARATOR===\n'.join(extracted_contents)`. -/
def joinTagSep : List Str → Str
  | [] => []
  | [l] => l
  | l :: ls => l ++ tagSepLit ++ joinTagSep ls

/-- The concatenation of all inter-tag gaps and the trailing text
(`content_between_tags`). -/
def betweenTags (r : List (Str × Str) × Str) : Str :=
  (r.1.map (fun gm => gm.1)).foldr (· ++ ·) [] ++ r.2

/-- `_process_multiple_tags_only`. -/
def process_multiple_tags_only (text : Str) : Str × Option TagInfo :=
  let twc := remove_comments text
  let ft := findTags twc
  if ft.1.length < 2 then (text, none)
  else
    let reconstructed := reassemble ft
    if reconstructed ≠ twc then (text, none)
    else
      if ¬ isBlank (betweenTags ft) then (text, none)
      else
        let r := mtagsLoop ft.1 [] 0
        (joinTagSep r.2.1,
         some (.multiple r.1 (r.2.2.1 ++ [r.2.2.2 ++ ft.2]) r.1.length))

/-- `_process_tag_content`: multi-tag first, then single-tag. -/
def process_tag_content (text : Str) : Str × Option TagInfo :=
  let m := process_multiple_tags_only text
  if m.2.isSome then m
  else
    let s := process_single_tag_content text
    if s.2.isSome then s else (text, none)

/-- `_restore_single_tag_content`. -/
def restore_single_tag_content (content : Str) (info : SingleTagInfo) : Str :=
  match info.kind with
  | .colon =>
    info.leadWs ++ info.tagPre ++ info.contentLeadWs ++ content ++
      info.contentTrailWs ++ info.tagSuf ++ info.trailWs
  | .simple => info.leadWs ++ info.fullTag ++ info.trailWs

/-- Python `translated_content.split('\n===TAG_SEPARATOR===\n')`, with fuel
(one unit per consumed character). -/
def splitTagSepF : Nat → Str → List Str
  | 0, s => [s]
  | _ + 1, [] => [[]]
  | fuel + 1, c :: rest =>
    if tagSepLit.isPrefixOf (c :: rest) then
      [] :: splitTagSepF fuel ((c :: rest).drop tagSepLit.length)
    else
      match splitTagSepF fuel rest with
      | [] => [[c]]
      | piece :: more => (c :: piece) :: more

def splitTagSep (s : Str) : List Str := splitTagSepF s.length s

/-- Pad with empty strings / truncate to the expected count
(the count-mismatch warning branch). -/
def padTo (parts : List Str) (n : Nat) : List Str :=
  (parts ++ List.replicate (n - parts.length) []).take n

/-- The rebuild loop of `_restore_multiple_tags`: each tag in turn, then
the following separator when there is one. -/
def buildMultiGo : List MultiTagEntry → List Str → List Str → Str
  | [], _, _ => []
  | e :: es, seps, parts =>
    let tag :=
      match e.kind with
      | .colon =>
        match parts with
        | p :: _ => e.tagPre ++ e.contentLeadWs ++ p ++ e.contentTrailWs ++
            e.tagSuf
        | [] => e.tagPre ++ e.tagSuf
      | .simple => e.fullTag
    let sep := match seps with | s :: _ => s | [] => []
    tag ++ sep ++ buildMultiGo es (seps.drop 1) (parts.drop 1)

/-- `_restore_multiple_tags`. -/
def restore_multiple_tags (translated : Str) (entries : List MultiTagEntry)
    (separators : List Str) (expected : Nat) : Str :=
  let parts0 := splitTagSep translated
  let parts := if parts0.length = expected then parts0 else padTo parts0 expected
  (separators.head?.getD []) ++ buildMultiGo entries (separators.drop 1) parts

/-- `_restore_tag_content`. -/
def restore_tag_content (content : Str) : Option TagInfo → Str
  | none => content
  | some (.single info) => restore_single_tag_content content info
  | some (.multiple entries separators tagCount) =>
    restore_multiple_tags content entries separators tagCount

/-- C2, counterexample: `"<b>A</b><i>B</i>"` is declined by the multi-tag
path — the letters `A` and `B` lie between the atomic `<...>` tag matches,
so `content_between_tags` is non-whitespace — and no payload
`"A\n===TAG_SEPARATOR===\nB"` is produced. -/
theorem C2_counterexample :
    (process_multiple_tags_only "<b>A</b><i>B</i>".toList).2 = none ∧
    (process_multiple_tags_only "<b>A</b><i>B</i>".toList).1 ≠
      "A\n===TAG_SEPARATOR===\nB".toList := by
  constructor
  · decide
  · decide

/-- C2 (amended): masking `"<b>A</b><i>B</i>"` leaves the text unchanged
and emits no record (the tag grammar is atomic `<...>`, so `A`/`B` are
non-whitespace text outside the tags and the multi-tag path declines);
the colon-tag analogue `"<b:A><i:B>"` masks to the payload
`"A\n===TAG_SEPARATOR===\nB"` with a `multiple_tags` record, and restoring
the translated payload `"X\n===TAG_SEPARATOR===\nY"` yields exactly
`"<b:X><i:Y>"`. -/
theorem C2_multi_tag :
    process_multiple_tags_only "<b>A</b><i>B</i>".toList =
      ("<b>A</b><i>B</i>".toList, none) ∧
    (process_multiple_tags_only "<b:A><i:B>".toList).1 =
      "A\n===TAG_SEPARATOR===\nB".toList ∧
    (process_multiple_tags_only "<b:A><i:B>".toList).2 ≠ none ∧
    restore_tag_content "X\n===TAG_SEPARATOR===\nY".toList
      (process_multiple_tags_only "<b:A><i:B>".toList).2 =
      "<b:X><i:Y>".toList := by
  refine ⟨by decide, by decide, by decide, by decide⟩

/-- C10: the reconstruction check of `_process_multiple_tags_only` always
succeeds — concatenating each inter-tag segment with each tag match equals
the comment-stripped input, so the branch guarded by
`reconstructed != text_without_comments` is unreachable — and the multi-tag
path declines an input exactly when it has fewer than two tag matches or
some text outside the tags is non-whitespace. -/
theorem C10_reconstruction (s t : Str) :
    reassemble (findTags t) = t ∧
    ((process_multiple_tags_only s).2 = none ↔
      ((findTags (remove_comments s)).1.length < 2 ∨
        isBlank (betweenTags (findTags (remove_comments s))) = false)) := by
  refine ⟨reassemble_findTags t, ?_⟩
  have hrec : ¬ (reassemble (findTags (remove_comments s)) ≠ remove_comments s) := by
    simp [reassemble_findTags]
  by_cases h2 : (findTags (remove_comments s)).1.length < 2
  · simp only [process_multiple_tags_only, if_pos h2]
    simp [h2]
  · by_cases h3 : isBlank (betweenTags (findTags (remove_comments s))) = true
    · simp only [process_multiple_tags_only, if_neg h2, if_neg hrec]
      rw [if_neg (by simp [h3])]
      simp [h2, h3]
    · simp only [process_multiple_tags_only, if_neg h2, if_neg hrec]
      rw [if_pos (by simp [h3])]
      constructor
      · intro _
        exact Or.inr (Bool.eq_false_iff.mpr h3)
      · intro _
        rfl

/-! ### LineAffixNormalizer: `_normalize_line_endings` / `_restore_line_endings`

The scanner walks the text once.  At each position it first checks whether
the next three characters, lowercased, spell `<br`; if so and a `>` occurs
later, everything through that first `>` is recorded as one line-ending
marker.  Otherwise it handles `\r\n`, `\r`, `\n`, or copies the character.
Fuel is one unit per consumed character. -/

/-- `text[i:i+3].lower() == '<br'`. -/
def isBrStart (s : Str) : Bool :=
  (s.take 3).map Char.toLower = ['<', 'b', 'r']

/-- The scanner of `_normalize_line_endings`; `pos` is `line_pos`. -/
def normScanF : Nat → Str → Nat → Str × List (Nat × Str)
  | 0, s, _ => (s, [])
  | _ + 1, [], _ => ([], [])
  | fuel + 1, c :: rest, pos =>
    if h : isBrStart (c :: rest) = true ∧ (splitAtGt (c :: rest)).isSome then
      let pr := (splitAtGt (c :: rest)).get h.2
      let r := normScanF fuel pr.2 (pos + 1)
      ('\n' :: r.1, (pos, pr.1 ++ ['>']) :: r.2)
    else if c = '\r' ∧ rest.head? = some '\n' then
      let r := normScanF fuel rest.tail (pos + 1)
      ('\n' :: r.1, (pos, ['\r', '\n']) :: r.2)
    else if c = '\r' then
      let r := normScanF fuel rest (pos + 1)
      ('\n' :: r.1, (pos, ['\r']) :: r.2)
    else if c = '\n' then
      let r := normScanF fuel rest (pos + 1)
      ('\n' :: r.1, (pos, ['\n']) :: r.2)
    else
      let r := normScanF fuel rest pos
      (c :: r.1, r.2)

/-- `_normalize_line_endings` (with its early return when no line-break
marker is present). -/
def normalize_line_endings (s : Str) : Str × List (Nat × Str) :=
  if ¬ (('\r' ∈ s) ∨ ('\n' ∈ s) ∨
      containsSub ['<', 'b', 'r'] (s.map Char.toLower) = true) then (s, [])
  else normScanF s.length s 0

/-- The rebuild loop of `_restore_line_endings`: every line but the last is
followed by its recorded marker (`'\n'` when the record runs short). -/
def joinEnds : List Str → List (Nat × Str) → Str
  | [], _ => []
  | l :: ls, es =>
    match ls with
    | [] => l
    | _ :: _ =>
      l ++ (match es with | e :: _ => e.2 | [] => ['\n']) ++
        joinEnds ls (es.drop 1)

/-- `_restore_line_endings`. -/
def restore_line_endings (text : Str) (es : List (Nat × Str)) : Str :=
  if es = [] then text
  else
    let lines := splitNl text
    if lines.length ≤ 1 then text
    else joinEnds lines es

theorem splitNl_cons_nl (n : Str) : splitNl ('\n' :: n) = [] :: splitNl n := by
  simp [splitNl]

theorem joinEnds_cons_sep (L : List Str) (p : Nat) (e : Str)
    (es : List (Nat × Str)) (hL : L ≠ []) :
    joinEnds ([] :: L) ((p, e) :: es) = e ++ joinEnds L es := by
  cases L with
  | nil => exact absurd rfl hL
  | cons l ls => rfl

theorem joinEnds_cons_char (c : Char) (n : Str) (es : List (Nat × Str))
    (hc : c ≠ '\n') :
    joinEnds (splitNl (c :: n)) es = c :: joinEnds (splitNl n) es := by
  cases hs : splitNl n with
  | nil => exact absurd hs (splitNl_ne_nil n)
  | cons piece more =>
    have hsplit : splitNl (c :: n) = (c :: piece) :: more := by
      simp only [splitNl, if_neg hc, hs]
    rw [hsplit]
    cases more with
    | nil => rfl
    | cons p2 m2 =>
      simp only [joinEnds, List.cons_append]

theorem normScanF_inverse (fuel : Nat) (s : Str) (pos : Nat)
    (hf : s.length ≤ fuel) :
    (normScanF fuel s pos).1.count '\n' = (normScanF fuel s pos).2.length ∧
    joinEnds (splitNl (normScanF fuel s pos).1) (normScanF fuel s pos).2 = s := by
  induction fuel generalizing s pos with
  | zero =>
    have : s = [] := List.length_eq_zero.mp (Nat.le_zero.mp hf)
    subst this
    exact ⟨rfl, rfl⟩
  | succ fuel ih =>
    cases s with
    | nil => exact ⟨rfl, rfl⟩
    | cons c rest =>
      simp only [List.length_cons] at hf
      by_cases hbr : isBrStart (c :: rest) = true ∧ (splitAtGt (c :: rest)).isSome
      · have hsome : splitAtGt (c :: rest) =
            some (((splitAtGt (c :: rest)).get hbr.2).1,
                  ((splitAtGt (c :: rest)).get hbr.2).2) :=
          (Option.some_get hbr.2).symm
        have hspec := splitAtGt_spec (c :: rest) _ _ hsome |>.1
        have hlen : ((splitAtGt (c :: rest)).get hbr.2).2.length ≤ fuel := by
          have := splitAtGt_after_length (c :: rest) _ _ hsome
          simp only [List.length_cons] at this
          omega
        have hih := ih ((splitAtGt (c :: rest)).get hbr.2).2 (pos + 1) hlen
        simp only [normScanF, dif_pos hbr]
        constructor
        · simp only [List.count_cons_self, List.length_cons]
          omega
        · rw [splitNl_cons_nl]
          rw [joinEnds_cons_sep _ _ _ _ (splitNl_ne_nil _)]
          rw [hih.2]
          rw [List.append_assoc, List.singleton_append]
          exact hspec
      · by_cases hrn : c = '\r' ∧ rest.head? = some '\n'
        · obtain ⟨hc, hh⟩ := hrn
          cases rest with
          | nil => cases hh
          | cons c2 rest2 =>
            simp only [List.head?, Option.some.injEq] at hh
            subst hh
            subst hc
            have hih := ih rest2 (pos + 1) (by simp at hf; omega)
            have hstep : normScanF (fuel + 1) ('\r' :: '\n' :: rest2) pos =
                ('\n' :: (normScanF fuel rest2 (pos + 1)).1,
                 (pos, ['\r', '\n']) :: (normScanF fuel rest2 (pos + 1)).2) := by
              simp [normScanF, dif_neg hbr]
            rw [hstep]
            constructor
            · simp only [List.count_cons_self, List.length_cons]
              omega
            · rw [splitNl_cons_nl]
              rw [joinEnds_cons_sep _ _ _ _ (splitNl_ne_nil _)]
              rw [hih.2]
              rfl
        · by_cases hr : c = '\r'
          · have hih := ih rest (pos + 1) (by omega)
            simp only [normScanF, dif_neg hbr, if_neg hrn, if_pos hr]
            constructor
            · simp only [List.count_cons_self, List.length_cons]
              omega
            · rw [splitNl_cons_nl]
              rw [joinEnds_cons_sep _ _ _ _ (splitNl_ne_nil _)]
              rw [hih.2, hr]
              rfl
          · by_cases hn : c = '\n'
            · have hih := ih rest (pos + 1) (by omega)
              simp only [normScanF, dif_neg hbr, if_neg hrn, if_neg hr, if_pos hn]
              constructor
              · simp only [List.count_cons_self, List.length_cons]
                omega
              · rw [splitNl_cons_nl]
                rw [joinEnds_cons_sep _ _ _ _ (splitNl_ne_nil _)]
                rw [hih.2, hn]
                rfl
            · have hih := ih rest pos (by omega)
              simp only [normScanF, dif_neg hbr, if_neg hrn, if_neg hr, if_neg hn]
              constructor
              · rw [List.count_cons_of_ne (fun hh => hn hh.symm)]
                exact hih.1
              · rw [joinEnds_cons_char c _ _ hn, hih.2]

theorem splitNl_eq_single (n : Str) (h : n.count '\n' = 0) : splitNl n = [n] := by
  induction n with
  | nil => rfl
  | cons c rest ih =>
    have hc : c ≠ '\n' := by
      intro hcc
      subst hcc
      simp [List.count_cons_self] at h
    have hrest : rest.count '\n' = 0 := by
      rw [List.count_cons_of_ne (fun hh => hc hh.symm)] at h
      exact h
    simp only [splitNl, if_neg hc, ih hrest]

theorem splitNl_length (n : Str) : (splitNl n).length = n.count '\n' + 1 := by
  induction n with
  | nil => simp [splitNl]
  | cons c rest ih =>
    by_cases hc : c = '\n'
    · subst hc
      simp [splitNl, List.count_cons_self, ih]
    · cases hs : splitNl rest with
      | nil => exact absurd hs (splitNl_ne_nil rest)
      | cons piece more =>
        rw [hs] at ih
        have hcnt : List.count '\n' (c :: rest) = List.count '\n' rest :=
          List.count_cons_of_ne (fun hh => hc hh.symm) rest
        simp only [splitNl, if_neg hc, hs, List.length_cons, hcnt]
        simpa using ih

theorem restore_line_endings_normalize (s : Str) :
    restore_line_endings (normalize_line_endings s).1
      (normalize_line_endings s).2 = s := by
  unfold normalize_line_endings
  by_cases h0 : ¬ (('\r' ∈ s) ∨ ('\n' ∈ s) ∨
      containsSub ['<', 'b', 'r'] (s.map Char.toLower) = true)
  · rw [if_pos h0]
    rfl
  · rw [if_neg h0]
    have hinv := normScanF_inverse s.length s 0 (Nat.le_refl _)
    unfold restore_line_endings
    by_cases hes : (normScanF s.length s 0).2 = []
    · rw [if_pos hes]
      rw [hes] at hinv
      have h1 : splitNl (normScanF s.length s 0).1 = [(normScanF s.length s 0).1] :=
        splitNl_eq_single _ (by simpa using hinv.1)
      have := hinv.2
      rw [h1] at this
      exact this
    · rw [if_neg hes]
      have hlen : ¬ (splitNl (normScanF s.length s 0).1).length ≤ 1 := by
        rw [splitNl_length, hinv.1]
        have : (normScanF s.length s 0).2.length ≥ 1 :=
          List.length_pos.mpr hes
        omega
      rw [if_neg hlen]
      exact hinv.2

/-- The shape of an HTML-break marker as the scanner actually accepts it:
first three characters case-insensitively `<br`, final character `>`, and
no `>` before the final one. -/
def isBrTag (m : Str) : Bool :=
  decide ((m.take 3).map Char.toLower = ['<', 'b', 'r']) &&
  decide (m.getLast? = some '>') &&
  decide ('>' ∉ m.dropLast)

theorem brStart_no_gt_take3 (s : Str) (h : isBrStart s = true) :
    '>' ∉ s.take 3 := by
  intro hmem
  unfold isBrStart at h
  have heq : (s.take 3).map Char.toLower = ['<', 'b', 'r'] :=
    of_decide_eq_true h
  have hmap : Char.toLower '>' ∈ (s.take 3).map Char.toLower :=
    List.mem_map_of_mem Char.toLower hmem
  rw [heq] at hmap
  have : ('>' : Char) ∈ ['<', 'b', 'r'] := by
    simpa using hmap
  simp at this

theorem brStart_mid_len (s mid after : Str) (hb : isBrStart s = true)
    (hg : splitAtGt s = some (mid, after)) : 3 ≤ mid.length := by
  by_contra hcon
  have hspec := splitAtGt_spec s mid after hg
  apply brStart_no_gt_take3 s hb
  rw [← hspec.1]
  rw [List.take_append_eq_append_take]
  apply List.mem_append.mpr
  right
  have : 1 ≤ 3 - mid.length := by omega
  cases hk : 3 - mid.length with
  | zero => omega
  | succ k => simp [List.take_cons]

theorem normScanF_marks (fuel : Nat) (s : Str) (pos : Nat) :
    ∀ pm ∈ (normScanF fuel s pos).2,
      pm.2 = ['\r', '\n'] ∨ pm.2 = ['\r'] ∨ pm.2 = ['\n'] ∨ isBrTag pm.2 = true := by
  induction fuel generalizing s pos with
  | zero => intro pm hpm; simp [normScanF] at hpm
  | succ fuel ih =>
    cases s with
    | nil => intro pm hpm; simp [normScanF] at hpm
    | cons c rest =>
      intro pm hpm
      by_cases hbr : isBrStart (c :: rest) = true ∧ (splitAtGt (c :: rest)).isSome
      · obtain ⟨pr, hpr⟩ := Option.isSome_iff_exists.mp hbr.2
        obtain ⟨mid, after⟩ := pr
        have hstep : normScanF (fuel + 1) (c :: rest) pos =
            ('\n' :: (normScanF fuel after (pos + 1)).1,
             (pos, mid ++ ['>']) :: (normScanF fuel after (pos + 1)).2) := by
          simp only [normScanF, hpr]
          rw [dif_pos ⟨hbr.1, rfl⟩]
          simp only [Option.get_some]
        rw [hstep] at hpm
        rcases List.mem_cons.mp hpm with heq | hmem
        · right; right; right
          subst heq
          have hspec := splitAtGt_spec (c :: rest) mid after hpr
          have hmid := brStart_mid_len (c :: rest) mid after hbr.1 hpr
          unfold isBrTag
          simp only [Bool.and_eq_true, decide_eq_true_eq]
          refine ⟨⟨?_, ?_⟩, ?_⟩
          · rw [List.take_append_of_le_length hmid]
            have h3 : (c :: rest).take 3 = mid.take 3 := by
              rw [← hspec.1, List.take_append_of_le_length hmid]
            rw [← h3]
            have hb := hbr.1
            unfold isBrStart at hb
            exact of_decide_eq_true hb
          · simp
          · simp only [List.dropLast_concat]
            exact hspec.2
        · exact ih _ _ pm hmem
      · by_cases hrn : c = '\r' ∧ rest.head? = some '\n'
        · rw [show normScanF (fuel + 1) (c :: rest) pos =
              ('\n' :: (normScanF fuel rest.tail (pos + 1)).1,
               (pos, ['\r', '\n']) :: (normScanF fuel rest.tail (pos + 1)).2)
              from by simp only [normScanF, dif_neg hbr, if_pos hrn]] at hpm
          rcases List.mem_cons.mp hpm with heq | hmem
          · subst heq; left; rfl
          · exact ih _ _ pm hmem
        · by_cases hr : c = '\r'
          · rw [show normScanF (fuel + 1) (c :: rest) pos =
                ('\n' :: (normScanF fuel rest (pos + 1)).1,
                 (pos, ['\r']) :: (normScanF fuel rest (pos + 1)).2)
                from by simp only [normScanF, dif_neg hbr, if_neg hrn, if_pos hr]] at hpm
            rcases List.mem_cons.mp hpm with heq | hmem
            · subst heq; right; left; rfl
            · exact ih _ _ pm hmem
          · by_cases hn : c = '\n'
            · rw [show normScanF (fuel + 1) (c :: rest) pos =
                  ('\n' :: (normScanF fuel rest (pos + 1)).1,
                   (pos, ['\n']) :: (normScanF fuel rest (pos + 1)).2)
                  from by simp only [normScanF, dif_neg hbr, if_neg hrn, if_neg hr,
                    if_pos hn]] at hpm
              rcases List.mem_cons.mp hpm with heq | hmem
              · subst heq; right; right; left; rfl
              · exact ih _ _ pm hmem
            · rw [show normScanF (fuel + 1) (c :: rest) pos =
                  (c :: (normScanF fuel rest pos).1, (normScanF fuel rest pos).2)
                  from by simp only [normScanF, dif_neg hbr, if_neg hrn, if_neg hr,
                    if_neg hn]] at hpm
              exact ih _ _ pm hpm

/-- C6, counterexample: any substring beginning with a case-insensitive
`<br` and closed by a later `>` is treated as a line separator — in
particular `"<browser>"` is recorded as a line-ending marker and replaced
by the canonical `'\n'`, not kept as line content. -/
theorem C6_counterexample :
    normalize_line_endings "x<browser>y".toList =
      ("x\ny".toList, [(1, "<browser>".toList)]) ∨
    normalize_line_endings "x<browser>y".toList =
      ("x\ny".toList, [(0, "<browser>".toList)]) := by
  decide

/-- C6 (amended): during line normalization, the recorded separators are
exactly of the shapes `\r\n`, `\r`, `\n`, or any substring that starts with
a case-insensitive `<br` and runs to the next `>` — not only the three
spellings `<br>`, `<br/>`, `<br />`; in particular `"<browser>"` is
consumed as a line separator.  The concrete examples confirm both the
canonical markers and the `<browser>` behaviour. -/
theorem C6_line_separators (s : Str) (pm : Nat × Str)
    (hm : pm ∈ (normalize_line_endings s).2) :
    (pm.2 = ['\r', '\n'] ∨ pm.2 = ['\r'] ∨ pm.2 = ['\n'] ∨ isBrTag pm.2 = true) ∧
    (normalize_line_endings "a\r\nb\n<br>c".toList).2 =
      [(0, ['\r', '\n']), (1, ['\n']), (2, "<br>".toList)] ∧
    (normalize_line_endings "x<browser>y".toList).1 = "x\ny".toList ∧
    (normalize_line_endings "x<browser>y".toList).2 ≠ [] := by
  refine ⟨?_, by decide, by decide, by decide⟩
  unfold normalize_line_endings at hm
  by_cases h0 : ¬ (('\r' ∈ s) ∨ ('\n' ∈ s) ∨
      containsSub ['<', 'b', 'r'] (s.map Char.toLower) = true)
  · rw [if_pos h0] at hm
    simp at hm
  · rw [if_neg h0] at hm
    exact normScanF_marks s.length s 0 pm hm

/-- C6, witness: the separator-shape theorem applied at the concrete text
`"a\rb"`, whose single recorded marker is the classic-Mac `'\r'`. -/
theorem C6_line_separators_witness :
    (((0 : Nat), ['\r']).2 = ['\r', '\n'] ∨ ((0 : Nat), ['\r']).2 = ['\r'] ∨
     ((0 : Nat), ['\r']).2 = ['\n'] ∨ isBrTag ((0 : Nat), ['\r']).2 = true) :=
  (C6_line_separators "a\rb".toList (0, ['\r']) (by decide)).1

/-! ### `_process_multiline_text` / `_restore_multiline_text` -/

/-- The Japanese character class `JAPANESE_CHAR_SET_CONTENT`. -/
def isJaChar (c : Char) : Bool :=
  (0x3040 ≤ c.toNat && c.toNat ≤ 0x309F) ||
  (0x30A0 ≤ c.toNat && c.toNat ≤ 0x30FF) ||
  (0x30FB ≤ c.toNat && c.toNat ≤ 0x30FE) ||
  (0xFF65 ≤ c.toNat && c.toNat ≤ 0xFF9F) ||
  (0x4E00 ≤ c.toNat && c.toNat ≤ 0x9FFF) ||
  (0x3400 ≤ c.toNat && c.toNat ≤ 0x4DBF) ||
  (0x3001 ≤ c.toNat && c.toNat ≤ 0x303F) ||
  (0xFF01 ≤ c.toNat && c.toNat ≤ 0xFF5E)

/-- `RE_WHITESPACE_AFFIX = r'^(\s*)(.*?)(\s*)$'` matched against one line
(no `\n` inside): maximal leading whitespace, trimmed middle, maximal
trailing whitespace. -/
def wsAffixMatch (line : Str) : Str × Str × Str :=
  let pre := line.takeWhile isPySpace
  let rest := line.dropWhile isPySpace
  ((pre : Str), (rest.reverse.dropWhile isPySpace).reverse,
   (rest.reverse.takeWhile isPySpace).reverse)

/-- `RE_JA_AFFIX = ^([^JA]*)(.*?)([^JA]*$)` on one line: when the line has
a Japanese character, the prefix is the maximal leading non-Japanese run
and the suffix the maximal trailing non-Japanese run; otherwise the greedy
first group swallows the whole line. -/
def jaAffixMatch (line : Str) : Str × Str × Str :=
  if line.any isJaChar then
    let rest := line.dropWhile (fun c => !(isJaChar c))
    (line.takeWhile (fun c => !(isJaChar c)),
     (rest.reverse.dropWhile (fun c => !(isJaChar c))).reverse,
     (rest.reverse.takeWhile (fun c => !(isJaChar c))).reverse)
  else (line, [], [])

/-- The prefix `elif` chain of `_handle_special_characters`: an opening
bracket at the end of the prefix is folded back into the core. -/
def hscFoldOpen (pre core : Str) : Str × Str :=
  if pre.getLast? = some '[' then (pre.dropLast, '[' :: core)
  else if pre.getLast? = some '{' then (pre.dropLast, '{' :: core)
  else if pre.getLast? = some '（' then (pre.dropLast, '（' :: core)
  else if pre.getLast? = some '(' then (pre.dropLast, '(' :: core)
  else (pre, core)

/-- The suffix `elif` chain of `_handle_special_characters`: a closing
bracket at the start of the suffix is folded back into the core. -/
def hscFoldClose (core suf : Str) : Str × Str :=
  if suf.head? = some ']' then (core ++ [']'], suf.tail)
  else if suf.head? = some '}' then (core ++ ['}'], suf.tail)
  else if suf.head? = some '）' then (core ++ ['）'], suf.tail)
  else if suf.head? = some ')' then (core ++ [')'], suf.tail)
  else (core, suf)

/-- `_handle_special_characters`: the two bracket chains, then a purely
numeric suffix is folded entirely into the core. -/
def handle_special_characters (pre core suf : Str) : Str × Str × Str :=
  let pc := hscFoldOpen pre core
  let cs := hscFoldClose pc.2 suf
  if cs.2 ≠ [] ∧ cs.2.all isAsciiDigit then (pc.1, cs.1 ++ cs.2, [])
  else (pc.1, cs.1, cs.2)

/-- One `lines_info` entry (`original_whitespace` is empty for non-empty
lines, whose dict has no such key). -/
structure LineInfo where
  pre : Str
  suf : Str
  isEmpty : Bool
  originalWs : Str
deriving DecidableEq

/-- The `if not core_text.strip() and line.strip():` guard: a degenerate
split is discarded and the whole line becomes the core. -/
def emptyCoreGuard (line : Str) (h : Str × Str × Str) : Str × Str × Str :=
  if isBlank h.2.1 ∧ ¬ isBlank line then (([] : Str), line, ([] : Str)) else h

/-- The `if prefix.strip().isdigit():` fold: only the leading whitespace
stays in the prefix, the number and its adjacent whitespace join the core. -/
def foldNumericPre (g : Str × Str × Str) : Str × Str × Str :=
  if pyStrip g.1 ≠ [] ∧ (pyStrip g.1).all isAsciiDigit then
    (g.1.takeWhile isPySpace, g.1.dropWhile isPySpace ++ g.2.1, g.2.2)
  else g

/-- The `if suffix.strip().isdigit():` fold, mirrored on the suffix. -/
def foldNumericSuf (g : Str × Str × Str) : Str × Str × Str :=
  if pyStrip g.2.2 ≠ [] ∧ (pyStrip g.2.2).all isAsciiDigit then
    (g.1, g.2.1 ++ (g.2.2.reverse.dropWhile isPySpace).reverse,
     (g.2.2.reverse.takeWhile isPySpace).reverse)
  else g

/-- The per-line body of `_process_multiline_text`'s loop.  Both affix
regexes match every line, so the `else` fallback of the Python `if match:`
is unreachable and is not modelled. -/
def processLine (isJa : Bool) (line : Str) : Option Str × LineInfo :=
  if line = [] ∨ isBlank line then (none, ⟨[], [], true, line⟩)
  else
    let m := if isJa then jaAffixMatch line else wsAffixMatch line
    let g3 := foldNumericSuf (foldNumericPre (emptyCoreGuard line
      (handle_special_characters m.1 m.2.1 m.2.2)))
    (some g3.2.1, ⟨g3.1, g3.2.2, false, []⟩)

/-- The line loop: collected non-empty cores and the `lines_info` list. -/
def processLinesGo (isJa : Bool) : List Str → List Str × List LineInfo
  | [] => ([], [])
  | l :: ls =>
    let r := processLine isJa l
    let rest := processLinesGo isJa ls
    match r.1 with
    | some core => (core :: rest.1, r.2 :: rest.2)
    | none => (rest.1, r.2 :: rest.2)

/-- The `info` record built by `_process_multiline_text`. -/
structure MLInfo where
  infoType : Str
  lineEndings : List (Nat × Str)
  linesInfo : List LineInfo
  tagInfo : Option TagInfo

/-- `source_lang == 'ja' or source_lang == 'japanese'`. -/
def isJaLang (lang : Str) : Bool :=
  lang = "ja".toList || lang = "japanese".toList

/-- `_process_multiline_text`. -/
def process_multiline_text (lang : Str) (text : Str) : Str × MLInfo :=
  let tp := process_tag_content text
  let ne := normalize_line_endings tp.1
  let lines := splitNl ne.1
  let pl := processLinesGo (isJaLang lang) lines
  (joinNl pl.1,
   ⟨(if tp.2.isSome then "multiline_with_tag".toList else "multiline".toList),
    ne.2, pl.2, tp.2⟩)

/-- The restore loop of `_restore_multiline_text`: empty slots replay the
cached original whitespace, non-empty slots consume the next translated
line (empty string when the translation runs short). -/
def restoreLinesGo : List LineInfo → List Str → List Str
  | [], _ => []
  | li :: lis, parts =>
    if li.isEmpty then li.originalWs :: restoreLinesGo lis parts
    else
      match parts with
      | p :: ps => (li.pre ++ p ++ li.suf) :: restoreLinesGo lis ps
      | [] => [] :: restoreLinesGo lis []

/-- `_restore_multiline_text`. -/
def restore_multiline_text (text : Str) (info : MLInfo) : Str :=
  let translated := splitNl text
  let restored := restoreLinesGo info.linesInfo translated
  let joined := joinNl restored
  let withEnds := restore_line_endings joined info.lineEndings
  restore_tag_content withEnds info.tagInfo

/-- `strip_and_record_affixes` (every value in this model is a string, so
the `isinstance` guard is always taken). -/
def strip_and_record_affixes (d : TextDict) (lang : Str) :
    TextDict × List (Nat × MLInfo) :=
  match d with
  | [] => ([], [])
  | (k, v) :: rest =>
    let e := process_multiline_text lang v
    let r := strip_and_record_affixes rest lang
    ((k, e.1) :: r.1, (k, e.2) :: r.2)

/-- `restore_affix_whitespace`. -/
def restore_affix_whitespace (info : List (Nat × MLInfo)) (d : TextDict) :
    TextDict :=
  d.map fun kv =>
    match dictGet kv.1 info with
    | none => kv
    | some i => (kv.1, restore_multiline_text kv.2 i)

/-- C5: `_process_multiline_text` on `"a\r\nb\n<br>c"` produces exactly
three logical (translatable) lines, `"a\nb\nc"`, and restoring the
unchanged payload through `_restore_multiline_text` reproduces
`"a\r\nb\n<br>c"` exactly, with `\r\n`, `\n` and `<br>` each at their
original positions. -/
theorem C5_line_ending_fidelity :
    (process_multiline_text "en".toList "a\r\nb\n<br>c".toList).1 =
      "a\nb\nc".toList ∧
    (splitNl (process_multiline_text "en".toList "a\r\nb\n<br>c".toList).1).length = 3 ∧
    restore_multiline_text
      (process_multiline_text "en".toList "a\r\nb\n<br>c".toList).1
      (process_multiline_text "en".toList "a\r\nb\n<br>c".toList).2 =
      "a\r\nb\n<br>c".toList := by
  refine ⟨by decide, by decide, by decide⟩

/-! ### Rule substitution and placeholder restoration -/

/-- Python `text.replace(src, dst)` (all non-overlapping occurrences),
with fuel. -/
def replaceSubF : Nat → Str → Str → Str → Str
  | 0, _, _, s => s
  | _ + 1, _, _, [] => []
  | fuel + 1, src, dst, c :: rest =>
    if src.isPrefixOf (c :: rest) ∧ src ≠ [] then
      dst ++ replaceSubF fuel src dst ((c :: rest).drop src.length)
    else c :: replaceSubF fuel src dst rest

def replaceSub (src dst s : Str) : Str := replaceSubF s.length src dst s

/-- Python `text.replace(src, dst, 1)` (first occurrence only). -/
def replaceFirst (src dst : Str) : Str → Str
  | [] => []
  | c :: rest =>
    if src.isPrefixOf (c :: rest) ∧ src ≠ [] then
      dst ++ (c :: rest).drop src.length
    else c :: replaceFirst src dst rest

/-- One rule application inside `replace_before_translation` /
`replace_after_translation`: a compiled regex substitutes via its action,
otherwise a non-empty `src` found in the text is literally replaced. -/
def applyRule (r : CompiledRule) (t : Str) : Str :=
  match r.compiledRegex with
  | some f => f r.dst t
  | none =>
    if r.src ≠ [] ∧ containsSub r.src t then replaceSub r.src r.dst t else t

/-- `replace_before_translation`. -/
def replace_before_translation (rules : List CompiledRule) (d : TextDict) :
    TextDict :=
  d.map fun kv => (kv.1, rules.foldl (fun t r => applyRule r t) kv.2)

/-- `replace_after_translation` (same shape, applied to the post rules). -/
def replace_after_translation (rules : List CompiledRule) (d : TextDict) :
    TextDict :=
  d.map fun kv => (kv.1, rules.foldl (fun t r => applyRule r t) kv.2)

/-- `_restore_special_placeholders`: per key, replay the records in
reverse, replacing the first remaining occurrence of each placeholder
(a missing placeholder is only a logged warning). -/
def restore_special_placeholders (d : TextDict)
    (po : List (Nat × List PlaceholderRec)) : TextDict :=
  d.map fun kv =>
    (kv.1, ((dictGet kv.1 po).getD []).reverse.foldl
      (fun t it =>
        if containsSub it.placeholder t then replaceFirst it.placeholder it.original t
        else t) kv.2)

/-! ### PipelineOrchestrator: `replace_all` / `restore_all` -/

/-- The configuration switches `replace_all`/`restore_all` read. -/
structure Config where
  preTranslationSwitch : Bool
  postTranslationSwitch : Bool
  autoProcessTextCodeSegment : Bool
  targetPlatform : Str

/-- The compiled state a `TextProcessor` instance carries: the two compiled
rule lists and `auto_compiled_patterns` (used both as affix patterns and as
placeholder patterns). -/
structure ProcState where
  preRules : List CompiledRule
  postRules : List CompiledRule
  autoPatterns : List RePat

/-- `replace_all`: pre-translation rules, line/whitespace + tag
normalization, optional affix stripping and placeholder masking, then
digital-sequence protection.  Returns
`(processed_text, prefix_codes, suffix_codes, placeholder_order,
affix_whitespace_storage)`. -/
def replace_all (st : ProcState) (cfg : Config) (lang : Str) (d : TextDict) :
    TextDict × List (Nat × List AffixCode) × List (Nat × List AffixCode) ×
      List (Nat × List PlaceholderRec) × List (Nat × MLInfo) :=
  let p0 := d
  let p1 := if cfg.preTranslationSwitch
            then replace_before_translation st.preRules p0 else p0
  let sr := strip_and_record_affixes p1 lang
  let auto :=
    if cfg.autoProcessTextCodeSegment then
      let pa := process_affixes sr.1 st.autoPatterns st.autoPatterns
      let pp := replace_special_placeholders cfg.targetPlatform pa.1
        st.autoPatterns
      (pp.1, pa.2.1, pa.2.2, pp.2)
    else (sr.1, [], [], [])
  let final := digital_sequence_preprocessing auto.1
  (final, auto.2.1, auto.2.2.1, auto.2.2.2, sr.2)

/-- `restore_all`: placeholder unmasking and affix reattachment (when auto
processing is on), post-translation rules, digital-sequence recovery, then
line/whitespace (and tag) restoration. -/
def restore_all (st : ProcState) (cfg : Config) (d : TextDict)
    (prefCodes sufCodes : List (Nat × List AffixCode))
    (po : List (Nat × List PlaceholderRec))
    (affixWs : List (Nat × MLInfo)) : TextDict :=
  let r0 := d
  let r1 := if cfg.autoProcessTextCodeSegment then
      restore_affixes (restore_special_placeholders r0 po) prefCodes sufCodes
    else r0
  let r2 := if cfg.postTranslationSwitch
            then replace_after_translation st.postRules r1 else r1
  let r3 := digital_sequence_recovery r2
  restore_affix_whitespace affixWs r3

/-! ### Per-line invariants for the identity round trip -/

theorem revSplit_concat (p : Char → Bool) (s : Str) :
    (s.reverse.dropWhile p).reverse ++ (s.reverse.takeWhile p).reverse = s := by
  rw [← List.reverse_append, List.takeWhile_append_dropWhile, List.reverse_reverse]

theorem wsAffixMatch_concat (line : Str) :
    (wsAffixMatch line).1 ++ (wsAffixMatch line).2.1 ++ (wsAffixMatch line).2.2 =
      line := by
  unfold wsAffixMatch
  rw [List.append_assoc, revSplit_concat, List.takeWhile_append_dropWhile]

theorem jaAffixMatch_concat (line : Str) :
    (jaAffixMatch line).1 ++ (jaAffixMatch line).2.1 ++ (jaAffixMatch line).2.2 =
      line := by
  unfold jaAffixMatch
  by_cases h : line.any isJaChar
  · rw [if_pos h]
    simp only
    rw [List.append_assoc, revSplit_concat, List.takeWhile_append_dropWhile]
  · rw [if_neg h]
    simp

theorem eq_dropLast_append (s : Str) (c : Char) (h : s.getLast? = some c) :
    s = s.dropLast ++ [c] := by
  induction s using List.reverseRecOn with
  | nil => cases h
  | append_singleton l a _ =>
    rw [List.getLast?_concat] at h
    simp only [Option.some.injEq] at h
    subst h
    rw [List.dropLast_concat]

theorem hscFoldOpen_concat (pre core : Str) :
    (hscFoldOpen pre core).1 ++ (hscFoldOpen pre core).2 = pre ++ core := by
  unfold hscFoldOpen
  split_ifs with h1 h2 h3 h4 <;>
    first
      | rfl
      | (conv_rhs => rw [eq_dropLast_append pre _ (by assumption)]
         simp [List.append_assoc])

theorem eq_cons_tail (s : Str) (c : Char) (h : s.head? = some c) :
    s = c :: s.tail := by
  cases s with
  | nil => cases h
  | cons a t =>
    simp only [List.head?, Option.some.injEq] at h
    subst h
    rfl

theorem hscFoldClose_concat (core suf : Str) :
    (hscFoldClose core suf).1 ++ (hscFoldClose core suf).2 = core ++ suf := by
  unfold hscFoldClose
  split_ifs with h1 h2 h3 h4 <;>
    first
      | rfl
      | (conv_rhs => rw [eq_cons_tail suf _ (by assumption)]
         simp [List.append_assoc])

theorem handle_special_concat (pre core suf : Str) :
    (handle_special_characters pre core suf).1 ++
      (handle_special_characters pre core suf).2.1 ++
      (handle_special_characters pre core suf).2.2 = pre ++ core ++ suf := by
  unfold handle_special_characters
  dsimp only
  have h1 := hscFoldOpen_concat pre core
  have h2 := hscFoldClose_concat (hscFoldOpen pre core).2 suf
  split_ifs with hd
  · simp only [List.append_nil]
    rw [h2, ← List.append_assoc, h1]
  · rw [List.append_assoc, h2, ← List.append_assoc, h1]

theorem processLine_blank (isJa : Bool) (line : Str)
    (h : line = [] ∨ isBlank line) :
    processLine isJa line = (none, ⟨[], [], true, line⟩) := by
  unfold processLine
  rw [if_pos h]

theorem emptyCoreGuard_concat (line : Str) (h : Str × Str × Str)
    (hc : h.1 ++ h.2.1 ++ h.2.2 = line) :
    (emptyCoreGuard line h).1 ++ (emptyCoreGuard line h).2.1 ++
      (emptyCoreGuard line h).2.2 = line := by
  unfold emptyCoreGuard
  split_ifs with hb
  · simp
  · exact hc

theorem foldNumericPre_concat (g : Str × Str × Str) :
    (foldNumericPre g).1 ++ (foldNumericPre g).2.1 ++ (foldNumericPre g).2.2 =
      g.1 ++ g.2.1 ++ g.2.2 := by
  unfold foldNumericPre
  split_ifs with hb
  · simp only
    rw [← List.append_assoc (g.1.takeWhile isPySpace),
      List.takeWhile_append_dropWhile]
  · rfl

theorem foldNumericSuf_concat (g : Str × Str × Str) :
    (foldNumericSuf g).1 ++ (foldNumericSuf g).2.1 ++ (foldNumericSuf g).2.2 =
      g.1 ++ g.2.1 ++ g.2.2 := by
  unfold foldNumericSuf
  split_ifs with hb
  · simp only
    rw [List.append_assoc g.1, List.append_assoc g.2.1, revSplit_concat,
      ← List.append_assoc]
  · rfl

theorem processLine_restore (isJa : Bool) (line : Str)
    (h : ¬ (line = [] ∨ isBlank line)) :
    ∃ core : Str,
      (processLine isJa line).1 = some core ∧
      (processLine isJa line).2.isEmpty = false ∧
      (processLine isJa line).2.pre ++ core ++ (processLine isJa line).2.suf =
        line := by
  unfold processLine
  rw [if_neg h]
  refine ⟨_, rfl, rfl, ?_⟩
  rw [foldNumericSuf_concat, foldNumericPre_concat, emptyCoreGuard_concat]
  rw [handle_special_concat]
  by_cases hj : isJa
  · simp only [if_pos hj]
    exact jaAffixMatch_concat line
  · simp only [if_neg hj]
    exact wsAffixMatch_concat line

theorem mem_joinNl_cases (L : List Str) (x : Char) (hx : x ∈ joinNl L) :
    x = '\n' ∨ ∃ l ∈ L, x ∈ l := by
  induction L with
  | nil => cases hx
  | cons a as ih =>
    cases as with
    | nil =>
      right
      exact ⟨a, List.mem_cons_self a [], hx⟩
    | cons b bs =>
      have hstep : joinNl (a :: b :: bs) = a ++ '\n' :: joinNl (b :: bs) := rfl
      rw [hstep] at hx
      rcases List.mem_append.mp hx with h | h
      · right
        exact ⟨a, List.mem_cons_self a _, h⟩
      · rcases List.mem_cons.mp h with h | h
        · exact Or.inl h
        · rcases ih h with h | ⟨l, hl, hxl⟩
          · exact Or.inl h
          · exact Or.inr ⟨l, List.mem_cons_of_mem a hl, hxl⟩

theorem processLinesGo_restore (isJa : Bool) (lines : List Str) :
    restoreLinesGo (processLinesGo isJa lines).2 (processLinesGo isJa lines).1 =
      lines ∧
    ((processLinesGo isJa lines).1 = [] →
      ∀ parts, restoreLinesGo (processLinesGo isJa lines).2 parts = lines) ∧
    ∀ core ∈ (processLinesGo isJa lines).1, ∀ x ∈ core, ∃ l ∈ lines, x ∈ l := by
  induction lines with
  | nil => exact ⟨rfl, fun _ _ => rfl, fun c hc => by cases hc⟩
  | cons l ls ih =>
    by_cases hb : l = [] ∨ isBlank l
    · have hpl := processLine_blank isJa l hb
      have hstep : processLinesGo isJa (l :: ls) =
          ((processLinesGo isJa ls).1,
           (⟨[], [], true, l⟩ : LineInfo) :: (processLinesGo isJa ls).2) := by
        simp only [processLinesGo, hpl]
      rw [hstep]
      refine ⟨?_, ?_, ?_⟩
      · show restoreLinesGo (⟨[], [], true, l⟩ :: (processLinesGo isJa ls).2)
          (processLinesGo isJa ls).1 = l :: ls
        simp [restoreLinesGo, ih.1]
      · intro hnil parts
        show restoreLinesGo (⟨[], [], true, l⟩ :: (processLinesGo isJa ls).2)
          parts = l :: ls
        simp [restoreLinesGo, ih.2.1 hnil parts]
      · intro core hcore x hx
        obtain ⟨ll, hll, hxl⟩ := ih.2.2 core hcore x hx
        exact ⟨ll, List.mem_cons_of_mem l hll, hxl⟩
    · obtain ⟨core, hc1, hc2, hc3⟩ := processLine_restore isJa l hb
      have hstep : processLinesGo isJa (l :: ls) =
          (core :: (processLinesGo isJa ls).1,
           (processLine isJa l).2 :: (processLinesGo isJa ls).2) := by
        simp only [processLinesGo, hc1]
      rw [hstep]
      refine ⟨?_, ?_, ?_⟩
      · show restoreLinesGo ((processLine isJa l).2 :: (processLinesGo isJa ls).2)
          (core :: (processLinesGo isJa ls).1) = l :: ls
        simp only [restoreLinesGo, hc2, Bool.false_eq_true, if_false]
        rw [ih.1, hc3]
      · intro hnil
        cases hnil
      · intro c hc x hx
        rcases List.mem_cons.mp hc with heq | hmem
        · subst heq
          refine ⟨l, List.mem_cons_self l ls, ?_⟩
          rw [← hc3]
          exact List.mem_append.mpr (Or.inl (List.mem_append.mpr (Or.inr hx)))
        · obtain ⟨ll, hll, hxl⟩ := ih.2.2 c hmem x hx
          exact ⟨ll, List.mem_cons_of_mem l hll, hxl⟩

theorem normScanF_chars (fuel : Nat) (s : Str) (pos : Nat) :
    ∀ x ∈ (normScanF fuel s pos).1, x = '\n' ∨ x ∈ s := by
  induction fuel generalizing s pos with
  | zero => intro x hx; exact Or.inr hx
  | succ fuel ih =>
    cases s with
    | nil => intro x hx; cases hx
    | cons c rest =>
      intro x hx
      by_cases hbr : isBrStart (c :: rest) = true ∧ (splitAtGt (c :: rest)).isSome
      · obtain ⟨pr, hpr⟩ := Option.isSome_iff_exists.mp hbr.2
        obtain ⟨mid, after⟩ := pr
        have hstep : normScanF (fuel + 1) (c :: rest) pos =
            ('\n' :: (normScanF fuel after (pos + 1)).1,
             (pos, mid ++ ['>']) :: (normScanF fuel after (pos + 1)).2) := by
          simp only [normScanF, hpr]
          rw [dif_pos ⟨hbr.1, rfl⟩]
          simp only [Option.get_some]
        rw [hstep] at hx
        rcases List.mem_cons.mp hx with heq | hmem
        · exact Or.inl heq
        · rcases ih after (pos + 1) x hmem with h | h
          · exact Or.inl h
          · right
            have := (splitAtGt_spec (c :: rest) mid after hpr).1
            rw [← this]
            exact List.mem_append.mpr (Or.inr (List.mem_cons_of_mem '>' h))
      · by_cases hrn : c = '\r' ∧ rest.head? = some '\n'
        · obtain ⟨hc, hh⟩ := hrn
          cases rest with
          | nil => cases hh
          | cons c2 rest2 =>
            simp only [List.head?, Option.some.injEq] at hh
            subst hh
            subst hc
            have hstep : normScanF (fuel + 1) ('\r' :: '\n' :: rest2) pos =
                ('\n' :: (normScanF fuel rest2 (pos + 1)).1,
                 (pos, ['\r', '\n']) :: (normScanF fuel rest2 (pos + 1)).2) := by
              simp [normScanF, dif_neg hbr]
            rw [hstep] at hx
            rcases List.mem_cons.mp hx with heq | hmem
            · exact Or.inl heq
            · rcases ih rest2 (pos + 1) x hmem with h | h
              · exact Or.inl h
              · exact Or.inr (List.mem_cons_of_mem _ (List.mem_cons_of_mem _ h))
        · by_cases hr : c = '\r'
          · have hstep : normScanF (fuel + 1) (c :: rest) pos =
                ('\n' :: (normScanF fuel rest (pos + 1)).1,
                 (pos, ['\r']) :: (normScanF fuel rest (pos + 1)).2) := by
              simp only [normScanF, dif_neg hbr, if_neg hrn, if_pos hr]
            rw [hstep] at hx
            rcases List.mem_cons.mp hx with heq | hmem
            · exact Or.inl heq
            · rcases ih rest (pos + 1) x hmem with h | h
              · exact Or.inl h
              · exact Or.inr (List.mem_cons_of_mem _ h)
          · by_cases hn : c = '\n'
            · have hstep : normScanF (fuel + 1) (c :: rest) pos =
                  ('\n' :: (normScanF fuel rest (pos + 1)).1,
                   (pos, ['\n']) :: (normScanF fuel rest (pos + 1)).2) := by
                simp only [normScanF, dif_neg hbr, if_neg hrn, if_neg hr,
                  if_pos hn]
              rw [hstep] at hx
              rcases List.mem_cons.mp hx with heq | hmem
              · exact Or.inl heq
              · rcases ih rest (pos + 1) x hmem with h | h
                · exact Or.inl h
                · exact Or.inr (List.mem_cons_of_mem _ h)
            · have hstep : normScanF (fuel + 1) (c :: rest) pos =
                  (c :: (normScanF fuel rest pos).1, (normScanF fuel rest pos).2) := by
                simp only [normScanF, dif_neg hbr, if_neg hrn, if_neg hr,
                  if_neg hn]
              rw [hstep] at hx
              rcases List.mem_cons.mp hx with heq | hmem
              · exact Or.inr (heq ▸ List.mem_cons_self c rest)
              · rcases ih rest pos x hmem with h | h
                · exact Or.inl h
                · exact Or.inr (List.mem_cons_of_mem _ h)

theorem normalize_chars (s : Str) :
    ∀ x ∈ (normalize_line_endings s).1, x = '\n' ∨ x ∈ s := by
  unfold normalize_line_endings
  split_ifs with h0
  · exact normScanF_chars s.length s 0
  · intro x hx; exact Or.inr hx

/-! ### Character preservation through comment removal, and the tag-path
pass-through for texts without `<` -/

theorem mem_lstrip (s : Str) (x : Char) (h : x ∈ lstrip s) : x ∈ s :=
  (List.dropWhile_sublist isPySpace).mem h

theorem mem_rstrip (s : Str) (x : Char) (h : x ∈ rstrip s) : x ∈ s := by
  unfold rstrip at h
  rw [List.mem_reverse] at h
  have := (List.dropWhile_sublist isPySpace).mem h
  rwa [List.mem_reverse] at this

theorem mem_pyStrip (s : Str) (x : Char) (h : x ∈ pyStrip s) : x ∈ s :=
  mem_lstrip s x (mem_rstrip (lstrip s) x h)

theorem mem_takeBeforeSlashSlash (s : Str) (x : Char)
    (h : x ∈ takeBeforeSlashSlash s) : x ∈ s := by
  induction s with
  | nil => cases h
  | cons c rest ih =>
    unfold takeBeforeSlashSlash at h
    split_ifs at h with hc
    · cases h
    · rcases List.mem_cons.mp h with heq | hmem
      · exact heq ▸ List.mem_cons_self c rest
      · exact List.mem_cons_of_mem c (ih hmem)

theorem mem_removeBlockCommentsF (fuel : Nat) (s : Str) (x : Char)
    (h : x ∈ removeBlockCommentsF fuel s) : x ∈ s := by
  induction fuel generalizing s with
  | zero => exact h
  | succ fuel ih =>
    cases s with
    | nil => cases h
    | cons c rest =>
      unfold removeBlockCommentsF at h
      split_ifs at h with hc
      · cases hd : dropThroughClose rest.tail with
        | some rest2 =>
          rw [hd] at h
          have hx2 := ih rest2 h
          have hx3 := dropThroughClose_subset rest.tail rest2 hd x hx2
          have hx4 : x ∈ rest := by
            cases rest with
            | nil => cases hx3
            | cons r rs => exact List.mem_cons_of_mem r hx3
          exact List.mem_cons_of_mem c hx4
        | none =>
          rw [hd] at h
          exact h
      · rcases List.mem_cons.mp h with heq | hmem
        · exact heq ▸ List.mem_cons_self c rest
        · exact List.mem_cons_of_mem c (ih rest hmem)

theorem mem_remove_comments (s : Str) (x : Char)
    (h : x ∈ remove_comments s) : x = '\n' ∨ x ∈ s := by
  unfold remove_comments removeBlockComments at h
  have h1 := mem_removeBlockCommentsF _ _ x h
  rcases mem_joinNl_cases _ x h1 with hnl | ⟨l, hl, hxl⟩
  · exact Or.inl hnl
  · right
    obtain ⟨part, hpart, hmap⟩ := List.mem_map.mp hl
    subst hmap
    exact mem_of_mem_splitNl s part x hpart (mem_takeBeforeSlashSlash part x hxl)

theorem no_lt_remove_comments (s : Str) (h : '<' ∉ s) :
    '<' ∉ remove_comments s := by
  intro hcon
  rcases mem_remove_comments s '<' hcon with hnl | hmem
  · cases hnl
  · exact h hmem

theorem head?_mem (s : Str) (c : Char) (h : s.head? = some c) : c ∈ s := by
  cases s with
  | nil => cases h
  | cons a t =>
    simp only [List.head?, Option.some.injEq] at h
    exact h ▸ List.mem_cons_self a t

theorem is_single_tag_only_no_lt (t : Str) (h : '<' ∉ t) :
    is_single_tag_only t = false := by
  unfold is_single_tag_only
  have hts : '<' ∉ pyStrip (if containsSub ['/', '/'] t || containsSub ['#'] t ||
      containsSub ['/', '*'] t then remove_comments t else t) := by
    intro hcon
    have hx := mem_pyStrip _ '<' hcon
    split_ifs at hx with hcomm
    · exact no_lt_remove_comments t h hx
    · exact h hx
  rw [if_neg]
  intro hcond
  exact hts (head?_mem _ '<' hcond.1)

theorem process_single_tag_no_lt (t : Str) (h : '<' ∉ t) :
    process_single_tag_content t = (t, none) := by
  unfold process_single_tag_content
  rw [if_pos]
  rw [is_single_tag_only_no_lt (remove_comments t) (no_lt_remove_comments t h)]
  simp

theorem process_multiple_tags_no_lt (t : Str) (h : '<' ∉ t) :
    process_multiple_tags_only t = (t, none) := by
  simp only [process_multiple_tags_only,
    findTags_no_lt (remove_comments t) (no_lt_remove_comments t h)]
  rw [if_pos (by simp)]

theorem process_tag_content_no_lt (t : Str) (h : '<' ∉ t) :
    process_tag_content t = (t, none) := by
  unfold process_tag_content
  rw [process_multiple_tags_no_lt t h, process_single_tag_no_lt t h]
  simp

/-! ### Digital-sequence per-text roundtrip -/

theorem drop_length_takeWhile {p : Char → Bool} (l : Str) :
    l.drop (l.takeWhile p).length = l.dropWhile p := by
  induction l with
  | nil => rfl
  | cons a t ih =>
    by_cases h : p a
    · simp [List.takeWhile, List.dropWhile, h, ih]
    · simp [List.takeWhile, List.dropWhile, h]

theorem digital_text_roundtrip (p : Str) (h : '【' ∉ p) :
    digitalSeqRec (digitalSeqPre p) = p := by
  by_cases hs : startsDigitsDot p
  · unfold startsDigitsDot at hs
    rw [decide_eq_true_iff] at hs
    obtain ⟨hne, hdot⟩ := hs
    rw [drop_length_takeWhile] at hdot
    have hdecomp : p.takeWhile isAsciiDigit ++ p.dropWhile isAsciiDigit = p :=
      List.takeWhile_append_dropWhile isAsciiDigit p
    obtain ⟨tl, htl⟩ : ∃ tl, p.dropWhile isAsciiDigit = '.' :: tl := by
      cases hd : p.dropWhile isAsciiDigit with
      | nil => rw [hd] at hdot; cases hdot
      | cons c tl =>
        rw [hd] at hdot
        simp only [List.head?, Option.some.injEq] at hdot
        exact ⟨tl, by rw [hdot]⟩
    have hd : ∀ c ∈ p.takeWhile isAsciiDigit, isAsciiDigit c = true := by
      intro c hc
      exact List.mem_takeWhile_imp hc
    have hp : p = p.takeWhile isAsciiDigit ++ '.' :: tl := by
      rw [← htl, hdecomp]
    rw [hp, digitalSeqPre_of_digits _ tl hne hd, digitalSeqRec_of_digits _ tl hne hd]
  · rw [digitalSeqPre_of_not_start p (by simpa using hs)]
    unfold digitalSeqRec
    rw [if_neg]
    intro hcon
    exact h (head?_mem p '【' hcon)

/-! ### Per-text multiline roundtrip for texts without tags -/

theorem multiline_text_roundtrip (lang t : Str) (h : '<' ∉ t) :
    restore_multiline_text (process_multiline_text lang t).1
      (process_multiline_text lang t).2 = t ∧
    ∀ x ∈ (process_multiline_text lang t).1, x = '\n' ∨ x ∈ t := by
  have htag := process_tag_content_no_lt t h
  simp only [process_multiline_text, restore_multiline_text, htag]
  set ne1 := (normalize_line_endings t).1 with hne1
  set lines := splitNl ne1 with hlines
  obtain ⟨hrt, hempty, hmem⟩ := processLinesGo_restore (isJaLang lang) lines
  set pl := processLinesGo (isJaLang lang) lines with hpl
  have hchars : ∀ x ∈ joinNl pl.1, x = '\n' ∨ x ∈ t := by
    intro x hx
    rcases mem_joinNl_cases pl.1 x hx with hnl | ⟨core, hcore, hxc⟩
    · exact Or.inl hnl
    · obtain ⟨l, hl, hxl⟩ := hmem core hcore x hxc
      have hx1 : x ∈ ne1 := mem_of_mem_splitNl ne1 l x hl hxl
      exact normalize_chars t x hx1
  refine ⟨?_, hchars⟩
  have hrestored : restoreLinesGo pl.2 (splitNl (joinNl pl.1)) = lines := by
    cases hc : pl.1 with
    | nil => exact hempty hc _
    | cons c cs =>
      have hnl : ∀ l ∈ pl.1, '\n' ∉ l := by
        intro core hcore hnlc
        obtain ⟨l, hl, hxl⟩ := hmem core hcore '\n' hnlc
        exact splitNl_no_nl ne1 l hl hxl
      rw [← hc, splitNl_joinNl pl.1 (by rw [hc]; exact List.cons_ne_nil c cs) hnl]
      exact hrt
  rw [hrestored, joinNl_splitNl]
  show restore_tag_content (restore_line_endings (normalize_line_endings t).1
    (normalize_line_endings t).2) none = t
  rw [restore_line_endings_normalize]
  rfl

/-! ### Dict-level composition lemmas and the batch identity round trip -/

theorem sar_keys (lang : Str) (d : TextDict) :
    (strip_and_record_affixes d lang).1.map Prod.fst = d.map Prod.fst ∧
    (strip_and_record_affixes d lang).2.map Prod.fst = d.map Prod.fst := by
  induction d with
  | nil => exact ⟨rfl, rfl⟩
  | cons kv rest ih =>
    obtain ⟨k, v⟩ := kv
    simp only [strip_and_record_affixes, List.map_cons]
    exact ⟨by rw [ih.1], by rw [ih.2]⟩

theorem restore_affix_ws_skip (k : Nat) (i : MLInfo)
    (info : List (Nat × MLInfo)) (d : TextDict)
    (h : ∀ kv ∈ d, kv.1 ≠ k) :
    restore_affix_whitespace ((k, i) :: info) d =
      restore_affix_whitespace info d := by
  unfold restore_affix_whitespace
  apply List.map_congr_left
  intro kv hkv
  have hne : ¬ (k = kv.1) := fun he => h kv hkv he.symm
  simp only [dictGet, if_neg hne]

theorem restore_affix_ws_cons (info : List (Nat × MLInfo)) (k : Nat)
    (v : Str) (d : TextDict) (i : MLInfo) (h : dictGet k info = some i) :
    restore_affix_whitespace info ((k, v) :: d) =
      (k, restore_multiline_text v i) :: restore_affix_whitespace info d := by
  unfold restore_affix_whitespace
  rw [List.map_cons]
  simp only [h]

theorem strip_restore_roundtrip (lang : Str) (d : TextDict)
    (hnod : (d.map Prod.fst).Nodup)
    (hlt : ∀ kv ∈ d, '<' ∉ kv.2) :
    restore_affix_whitespace (strip_and_record_affixes d lang).2
      (strip_and_record_affixes d lang).1 = d := by
  induction d with
  | nil => rfl
  | cons kv rest ih =>
    obtain ⟨k, v⟩ := kv
    simp only [List.map_cons, List.nodup_cons] at hnod
    have hv : '<' ∉ v := hlt (k, v) (List.mem_cons_self _ _)
    have hrest : ∀ kv ∈ rest, '<' ∉ kv.2 :=
      fun kv hkv => hlt kv (List.mem_cons_of_mem _ hkv)
    have hget : dictGet k ((k, (process_multiline_text lang v).2) ::
        (strip_and_record_affixes rest lang).2) =
        some (process_multiline_text lang v).2 := by
      simp [dictGet]
    have hkeys : ∀ kv2 ∈ (strip_and_record_affixes rest lang).1, kv2.1 ≠ k := by
      intro kv2 hkv2 he
      apply hnod.1
      rw [← (sar_keys lang rest).1]
      exact he ▸ List.mem_map_of_mem Prod.fst hkv2
    simp only [strip_and_record_affixes]
    rw [restore_affix_ws_cons _ _ _ _ _ hget,
        restore_affix_ws_skip _ _ _ _ hkeys,
        ih hnod.2 hrest,
        (multiline_text_roundtrip lang v hv).1]

theorem sar_values_no_mark (lang : Str) (d : TextDict)
    (hval : ∀ kv ∈ d, '<' ∉ kv.2 ∧ '【' ∉ kv.2) :
    ∀ kv ∈ (strip_and_record_affixes d lang).1, '【' ∉ kv.2 := by
  induction d with
  | nil => intro kv hkv; cases hkv
  | cons e rest ih =>
    obtain ⟨k, v⟩ := e
    simp only [strip_and_record_affixes]
    intro kv hkv
    rcases List.mem_cons.mp hkv with heq | hmem
    · subst heq
      intro hcon
      rcases (multiline_text_roundtrip lang v
          (hval (k, v) (List.mem_cons_self _ _)).1).2 '【' hcon with h1 | h2
      · exact absurd h1 (by decide)
      · exact (hval (k, v) (List.mem_cons_self _ _)).2 h2
    · exact ih (fun kv2 hk2 => hval kv2 (List.mem_cons_of_mem _ hk2)) kv hmem

theorem digital_dict_roundtrip (d : TextDict)
    (hni : ∀ kv ∈ d, '【' ∉ kv.2) :
    digital_sequence_recovery (digital_sequence_preprocessing d) = d := by
  induction d with
  | nil => rfl
  | cons kv rest ih =>
    have ih2 := ih (fun kv2 h2 => hni kv2 (List.mem_cons_of_mem _ h2))
    simp only [digital_sequence_preprocessing, digital_sequence_recovery,
      List.map_cons] at ih2 ⊢
    rw [digital_text_roundtrip kv.2 (hni kv (List.mem_cons_self _ _)), ih2]

/-- C1, counterexample: with every switch off and the single text `"【1】X"`
(which `replace_all` leaves untouched: it does not start with digits-dot, so
digital protection does not fire), `restore_all` on the unchanged masked
output applies `digital_sequence_recovery`, which rewrites the leading
`"【1】"` the input already carried into `"1."`, returning `"1.X"` instead of
the original. -/
theorem C1_counterexample :
    (let st : ProcState := ⟨[], [], []⟩
     let cfg : Config := ⟨false, false, false, []⟩
     let d : TextDict := [(0, "【1】X".toList)]
     let r := replace_all st cfg "en".toList d
     restore_all st cfg r.1 r.2.1 r.2.2.1 r.2.2.2.1 r.2.2.2.2) =
      [(0, "1.X".toList)] ∧
    (let st : ProcState := ⟨[], [], []⟩
     let cfg : Config := ⟨false, false, false, []⟩
     let d : TextDict := [(0, "【1】X".toList)]
     let r := replace_all st cfg "en".toList d
     restore_all st cfg r.1 r.2.1 r.2.2.1 r.2.2.2.1 r.2.2.2.2) ≠
      [(0, "【1】X".toList)] := by
  constructor
  · decide
  · decide

/-- C1 (amended): with the pre-translation, post-translation and
auto-code-segment switches all off, for every language and every batch with
distinct keys whose texts contain neither `'<'` nor `'【'`, masking with
`replace_all` and restoring the unchanged masked output with `restore_all`
(passing the records `replace_all` emitted) returns exactly the original
batch, including all original whitespace and line-break spellings. -/
theorem C1_identity_roundtrip (st : ProcState) (cfg : Config) (lang : Str)
    (d : TextDict)
    (hpre : cfg.preTranslationSwitch = false)
    (hpost : cfg.postTranslationSwitch = false)
    (hauto : cfg.autoProcessTextCodeSegment = false)
    (hnod : (d.map Prod.fst).Nodup)
    (hval : ∀ kv ∈ d, '<' ∉ kv.2 ∧ '【' ∉ kv.2) :
    restore_all st cfg (replace_all st cfg lang d).1
      (replace_all st cfg lang d).2.1
      (replace_all st cfg lang d).2.2.1
      (replace_all st cfg lang d).2.2.2.1
      (replace_all st cfg lang d).2.2.2.2 = d := by
  simp only [replace_all, restore_all, hpre, hpost, hauto, Bool.false_eq_true,
    if_false]
  rw [digital_dict_roundtrip _ (sar_values_no_mark lang d hval)]
  exact strip_restore_roundtrip lang d hnod (fun kv hkv => (hval kv hkv).1)

theorem C1_identity_roundtrip_witness :
    restore_all ⟨[], [], []⟩ ⟨false, false, false, []⟩
      (replace_all ⟨[], [], []⟩ ⟨false, false, false, []⟩ "en".toList
        [(0, "a\r\n b".toList), (1, "1. x".toList)]).1
      (replace_all ⟨[], [], []⟩ ⟨false, false, false, []⟩ "en".toList
        [(0, "a\r\n b".toList), (1, "1. x".toList)]).2.1
      (replace_all ⟨[], [], []⟩ ⟨false, false, false, []⟩ "en".toList
        [(0, "a\r\n b".toList), (1, "1. x".toList)]).2.2.1
      (replace_all ⟨[], [], []⟩ ⟨false, false, false, []⟩ "en".toList
        [(0, "a\r\n b".toList), (1, "1. x".toList)]).2.2.2.1
      (replace_all ⟨[], [], []⟩ ⟨false, false, false, []⟩ "en".toList
        [(0, "a\r\n b".toList), (1, "1. x".toList)]).2.2.2.2 =
      [(0, "a\r\n b".toList), (1, "1. x".toList)] :=
  C1_identity_roundtrip ⟨[], [], []⟩ ⟨false, false, false, []⟩ "en".toList
    [(0, "a\r\n b".toList), (1, "1. x".toList)]
    rfl rfl rfl (by decide) (by decide)

/-! ### A heap model for the dict allocation discipline of the pipeline

Python dicts are mutable objects.  `Heap` assigns a `TextDict` to every
address; `halloc` places a dict at the next fresh address, `hwrite` mutates
the dict stored at an existing address in place.  Every stage of
`replace_all` / `restore_all` is classified by how the source manipulates
dicts: builders of new dicts (`hFresh`), `d.copy()` followed by in-place
updates of the copy (`hCopyUpdate`), and the two digital-sequence methods,
which write through their argument (`hInPlace`). -/

structure Heap where
  mem : Nat → TextDict
  next : Nat

def halloc (h : Heap) (d : TextDict) : Heap × Nat :=
  (⟨fun a => if a = h.next then d else h.mem a, h.next + 1⟩, h.next)

def hwrite (h : Heap) (a : Nat) (d : TextDict) : Heap :=
  ⟨fun a2 => if a2 = a then d else h.mem a2, h.next⟩

/-- A stage whose Python code fills a brand-new dict (`{}` or a dict
comprehension) from the dict it reads at `a`. -/
def hFresh (f : TextDict → TextDict) (h : Heap) (a : Nat) : Heap × Nat :=
  halloc h (f (h.mem a))

/-- A stage whose Python code does `text_dict.copy()` and then assigns keys
of the copy in place (`replace_before_translation`,
`replace_after_translation`). -/
def hCopyUpdate (f : TextDict → TextDict) (h : Heap) (a : Nat) : Heap × Nat :=
  let hb := halloc h (h.mem a)
  (hwrite hb.1 hb.2 (f (hb.1.mem hb.2)), hb.2)

/-- A stage whose Python code assigns `text_dict[k] = ...` on the very dict
it received and returns it (`digital_sequence_preprocessing`,
`digital_sequence_recovery`). -/
def hInPlace (f : TextDict → TextDict) (h : Heap) (a : Nat) : Heap × Nat :=
  (hwrite h a (f (h.mem a)), a)

/-- The auto-processing block of `replace_all`: `_process_affixes` and
`_replace_special_placeholders` each build new dicts. -/
def hAutoProcess (st : ProcState) (platform : Str) (h : Heap) (a : Nat) :
    (Heap × Nat) × List (Nat × List AffixCode) × List (Nat × List AffixCode) ×
      List (Nat × List PlaceholderRec) :=
  let pa := process_affixes (h.mem a) st.autoPatterns st.autoPatterns
  let s1 := halloc h pa.1
  let pp := replace_special_placeholders platform (s1.1.mem s1.2) st.autoPatterns
  let s2 := halloc s1.1 pp.1
  (s2, pa.2.1, pa.2.2, pp.2)

/-- Heap-level `replace_all`: the opening dict comprehension is a fresh
copy, each stage allocates as its source does, and digital-sequence
protection writes in place at the (fresh) address it is handed. -/
def hReplaceAll (st : ProcState) (cfg : Config) (lang : Str) (h : Heap)
    (a : Nat) :
    (Heap × Nat) × List (Nat × List AffixCode) × List (Nat × List AffixCode) ×
      List (Nat × List PlaceholderRec) × List (Nat × MLInfo) :=
  let s0 := hFresh (fun d => d) h a
  let s1 := if cfg.preTranslationSwitch
            then hCopyUpdate (fun d => replace_before_translation st.preRules d)
              s0.1 s0.2
            else s0
  let ws := (strip_and_record_affixes (s1.1.mem s1.2) lang).2
  let s2 := hFresh (fun d => (strip_and_record_affixes d lang).1) s1.1 s1.2
  let s3 := if cfg.autoProcessTextCodeSegment
            then hAutoProcess st cfg.targetPlatform s2.1 s2.2
            else (s2, [], [], [])
  let s4 := hInPlace digital_sequence_preprocessing s3.1.1 s3.1.2
  (s4, s3.2.1, s3.2.2.1, s3.2.2.2, ws)

/-- Heap-level `restore_all`: starts from `text_dict.copy()`, every restore
stage allocates a new dict except digital-sequence recovery, which writes
in place at the (fresh) address it is handed. -/
def hRestoreAll (st : ProcState) (cfg : Config) (h : Heap) (a : Nat)
    (prefCodes sufCodes : List (Nat × List AffixCode))
    (po : List (Nat × List PlaceholderRec))
    (affixWs : List (Nat × MLInfo)) : Heap × Nat :=
  let s0 := hFresh (fun d => d) h a
  let s1 := if cfg.autoProcessTextCodeSegment then
      let t1 := hFresh (fun d => restore_special_placeholders d po) s0.1 s0.2
      hFresh (fun d => restore_affixes d prefCodes sufCodes) t1.1 t1.2
    else s0
  let s2 := if cfg.postTranslationSwitch
            then hCopyUpdate (fun d => replace_after_translation st.postRules d)
              s1.1 s1.2
            else s1
  let s3 := hInPlace digital_sequence_recovery s2.1 s2.2
  hFresh (fun d => restore_affix_whitespace affixWs d) s3.1 s3.2

/-- `h1` extends `h0` without touching any address `h0` had allocated. -/
def Untouched (h0 h1 : Heap) : Prop :=
  h0.next ≤ h1.next ∧ ∀ addr, addr < h0.next → h1.mem addr = h0.mem addr

theorem untouched_refl (h : Heap) : Untouched h h :=
  ⟨Nat.le_refl _, fun _ _ => rfl⟩

theorem untouched_trans {h0 h1 h2 : Heap} (a : Untouched h0 h1)
    (b : Untouched h1 h2) : Untouched h0 h2 :=
  ⟨Nat.le_trans a.1 b.1,
   fun addr ha => (b.2 addr (Nat.lt_of_lt_of_le ha a.1)).trans (a.2 addr ha)⟩

theorem hFresh_get (f : TextDict → TextDict) (h : Heap) (a : Nat) :
    (hFresh f h a).1.mem (hFresh f h a).2 = f (h.mem a) := by
  simp [hFresh, halloc]

theorem hFresh_untouched (f : TextDict → TextDict) (h : Heap) (a : Nat) :
    Untouched h (hFresh f h a).1 := by
  refine ⟨Nat.le_succ h.next, fun addr ha => ?_⟩
  simp [hFresh, halloc, Nat.ne_of_lt ha]

theorem hFresh_addr (f : TextDict → TextDict) (h : Heap) (a : Nat) :
    (hFresh f h a).2 = h.next := rfl

theorem hFresh_next (f : TextDict → TextDict) (h : Heap) (a : Nat) :
    (hFresh f h a).1.next = h.next + 1 := rfl

theorem hCopyUpdate_get (f : TextDict → TextDict) (h : Heap) (a : Nat) :
    (hCopyUpdate f h a).1.mem (hCopyUpdate f h a).2 = f (h.mem a) := by
  simp [hCopyUpdate, halloc, hwrite]

theorem hCopyUpdate_untouched (f : TextDict → TextDict) (h : Heap) (a : Nat) :
    Untouched h (hCopyUpdate f h a).1 := by
  refine ⟨Nat.le_succ h.next, fun addr ha => ?_⟩
  simp [hCopyUpdate, halloc, hwrite, Nat.ne_of_lt ha]

theorem hCopyUpdate_addr (f : TextDict → TextDict) (h : Heap) (a : Nat) :
    (hCopyUpdate f h a).2 = h.next := rfl

theorem hInPlace_get (f : TextDict → TextDict) (h : Heap) (a : Nat) :
    (hInPlace f h a).1.mem (hInPlace f h a).2 = f (h.mem a) := by
  simp [hInPlace, hwrite]

theorem hInPlace_addr (f : TextDict → TextDict) (h : Heap) (a : Nat) :
    (hInPlace f h a).2 = a := rfl

theorem hInPlace_untouched {h0 : Heap} (f : TextDict → TextDict) (h : Heap)
    (a : Nat) (hu : Untouched h0 h) (hfa : h0.next ≤ a) :
    Untouched h0 (hInPlace f h a).1 := by
  refine ⟨hu.1, fun addr ha => ?_⟩
  have hne : addr ≠ a := Nat.ne_of_lt (Nat.lt_of_lt_of_le ha hfa)
  simp only [hInPlace, hwrite, if_neg hne]
  exact hu.2 addr ha

theorem hAutoProcess_get (st : ProcState) (platform : Str) (h : Heap)
    (a : Nat) :
    (hAutoProcess st platform h a).1.1.mem (hAutoProcess st platform h a).1.2 =
      (replace_special_placeholders platform
        (process_affixes (h.mem a) st.autoPatterns st.autoPatterns).1
        st.autoPatterns).1 := by
  simp [hAutoProcess, halloc]

theorem hAutoProcess_records (st : ProcState) (platform : Str) (h : Heap)
    (a : Nat) :
    (hAutoProcess st platform h a).2 =
      ((process_affixes (h.mem a) st.autoPatterns st.autoPatterns).2.1,
       (process_affixes (h.mem a) st.autoPatterns st.autoPatterns).2.2,
       (replace_special_placeholders platform
         (process_affixes (h.mem a) st.autoPatterns st.autoPatterns).1
         st.autoPatterns).2) := by
  simp [hAutoProcess, halloc]

theorem hAutoProcess_untouched (st : ProcState) (platform : Str) (h : Heap)
    (a : Nat) : Untouched h (hAutoProcess st platform h a).1.1 := by
  refine ⟨by simp [hAutoProcess, halloc]; exact Nat.le_add_right _ 2,
    fun addr ha => ?_⟩
  have h1 : addr ≠ h.next := Nat.ne_of_lt ha
  have h2 : addr ≠ h.next + 1 := Nat.ne_of_lt (Nat.lt_succ_of_lt ha)
  simp [hAutoProcess, halloc, h1, h2]

theorem hAutoProcess_addr (st : ProcState) (platform : Str) (h : Heap)
    (a : Nat) : (hAutoProcess st platform h a).1.2 = h.next + 1 := rfl

theorem hReplaceAll_spec (st : ProcState) (cfg : Config) (lang : Str)
    (h : Heap) (a : Nat) :
    Untouched h (hReplaceAll st cfg lang h a).1.1 ∧
    h.next ≤ (hReplaceAll st cfg lang h a).1.2 ∧
    (hReplaceAll st cfg lang h a).1.1.mem (hReplaceAll st cfg lang h a).1.2 =
      (replace_all st cfg lang (h.mem a)).1 ∧
    (hReplaceAll st cfg lang h a).2 = (replace_all st cfg lang (h.mem a)).2 := by
  have h0u := hFresh_untouched (fun d => d) h a
  cases hpre : cfg.preTranslationSwitch with
  | false =>
    cases hauto : cfg.autoProcessTextCodeSegment with
    | false =>
      simp only [hReplaceAll, replace_all, hpre, hauto, Bool.false_eq_true,
        if_false]
      have h2u := hFresh_untouched
        (fun d => (strip_and_record_affixes d lang).1)
        (hFresh (fun d => d) h a).1 (hFresh (fun d => d) h a).2
      have hbound : h.next ≤ (hFresh (fun d => d) h a).1.next := h0u.1
      refine ⟨?_, ?_, ?_, ?_⟩
      · exact hInPlace_untouched _ _ _
          (untouched_trans h0u h2u) (by rw [hFresh_addr]; exact hbound)
      · rw [hInPlace_addr, hFresh_addr]; exact hbound
      · simp only [hInPlace_get, hFresh_get]
      · simp only [hFresh_get]
    | true =>
      simp only [hReplaceAll, replace_all, hpre, hauto, Bool.false_eq_true,
        if_false, if_true]
      have h2u := hFresh_untouched
        (fun d => (strip_and_record_affixes d lang).1)
        (hFresh (fun d => d) h a).1 (hFresh (fun d => d) h a).2
      have h3u := hAutoProcess_untouched st cfg.targetPlatform
        (hFresh (fun d => (strip_and_record_affixes d lang).1)
          (hFresh (fun d => d) h a).1 (hFresh (fun d => d) h a).2).1
        (hFresh (fun d => (strip_and_record_affixes d lang).1)
          (hFresh (fun d => d) h a).1 (hFresh (fun d => d) h a).2).2
      have hbound : h.next ≤
          (hFresh (fun d => (strip_and_record_affixes d lang).1)
            (hFresh (fun d => d) h a).1
            (hFresh (fun d => d) h a).2).1.next :=
        Nat.le_trans h0u.1 h2u.1
      refine ⟨?_, ?_, ?_, ?_⟩
      · exact hInPlace_untouched _ _ _
          (untouched_trans h0u (untouched_trans h2u h3u))
          (by rw [hAutoProcess_addr]; exact Nat.le_succ_of_le hbound)
      · rw [hInPlace_addr, hAutoProcess_addr]
        exact Nat.le_succ_of_le hbound
      · simp only [hInPlace_get, hAutoProcess_get, hFresh_get]
      · simp only [hAutoProcess_records, hFresh_get]
  | true =>
    have h1u := hCopyUpdate_untouched
      (fun d => replace_before_translation st.preRules d)
      (hFresh (fun d => d) h a).1 (hFresh (fun d => d) h a).2
    cases hauto : cfg.autoProcessTextCodeSegment with
    | false =>
      simp only [hReplaceAll, replace_all, hpre, hauto, Bool.false_eq_true,
        if_false, if_true]
      have h2u := hFresh_untouched
        (fun d => (strip_and_record_affixes d lang).1)
        (hCopyUpdate (fun d => replace_before_translation st.preRules d)
          (hFresh (fun d => d) h a).1 (hFresh (fun d => d) h a).2).1
        (hCopyUpdate (fun d => replace_before_translation st.preRules d)
          (hFresh (fun d => d) h a).1 (hFresh (fun d => d) h a).2).2
      have hbound : h.next ≤
          (hCopyUpdate (fun d => replace_before_translation st.preRules d)
            (hFresh (fun d => d) h a).1
            (hFresh (fun d => d) h a).2).1.next :=
        Nat.le_trans h0u.1 h1u.1
      refine ⟨?_, ?_, ?_, ?_⟩
      · exact hInPlace_untouched _ _ _
          (untouched_trans h0u (untouched_trans h1u h2u))
          (by rw [hFresh_addr]; exact hbound)
      · rw [hInPlace_addr, hFresh_addr]; exact hbound
      · simp only [hInPlace_get, hFresh_get, hCopyUpdate_get]
      · simp only [hFresh_get, hCopyUpdate_get]
    | true =>
      simp only [hReplaceAll, replace_all, hpre, hauto, Bool.false_eq_true,
        if_false, if_true]
      have h2u := hFresh_untouched
        (fun d => (strip_and_record_affixes d lang).1)
        (hCopyUpdate (fun d => replace_before_translation st.preRules d)
          (hFresh (fun d => d) h a).1 (hFresh (fun d => d) h a).2).1
        (hCopyUpdate (fun d => replace_before_translation st.preRules d)
          (hFresh (fun d => d) h a).1 (hFresh (fun d => d) h a).2).2
      have h3u := hAutoProcess_untouched st cfg.targetPlatform
        (hFresh (fun d => (strip_and_record_affixes d lang).1)
          (hCopyUpdate (fun d => replace_before_translation st.preRules d)
            (hFresh (fun d => d) h a).1 (hFresh (fun d => d) h a).2).1
          (hCopyUpdate (fun d => replace_before_translation st.preRules d)
            (hFresh (fun d => d) h a).1 (hFresh (fun d => d) h a).2).2).1
        (hFresh (fun d => (strip_and_record_affixes d lang).1)
          (hCopyUpdate (fun d => replace_before_translation st.preRules d)
            (hFresh (fun d => d) h a).1 (hFresh (fun d => d) h a).2).1
          (hCopyUpdate (fun d => replace_before_translation st.preRules d)
            (hFresh (fun d => d) h a).1 (hFresh (fun d => d) h a).2).2).2
      have hbound : h.next ≤
          (hFresh (fun d => (strip_and_record_affixes d lang).1)
            (hCopyUpdate (fun d => replace_before_translation st.preRules d)
              (hFresh (fun d => d) h a).1 (hFresh (fun d => d) h a).2).1
            (hCopyUpdate (fun d => replace_before_translation st.preRules d)
              (hFresh (fun d => d) h a).1
              (hFresh (fun d => d) h a).2).2).1.next :=
        Nat.le_trans h0u.1 (Nat.le_trans h1u.1 h2u.1)
      refine ⟨?_, ?_, ?_, ?_⟩
      · exact hInPlace_untouched _ _ _
          (untouched_trans h0u (untouched_trans h1u (untouched_trans h2u h3u)))
          (by rw [hAutoProcess_addr]; exact Nat.le_succ_of_le hbound)
      · rw [hInPlace_addr, hAutoProcess_addr]
        exact Nat.le_succ_of_le hbound
      · simp only [hInPlace_get, hAutoProcess_get, hFresh_get, hCopyUpdate_get]
      · simp only [hAutoProcess_records, hFresh_get, hCopyUpdate_get]

theorem hRestoreTail_spec (affixWs : List (Nat × MLInfo)) (h0 h : Heap)
    (p : Nat) (hu : Untouched h0 h) (hp : h0.next ≤ p) :
    Untouched h0 (hFresh (fun d => restore_affix_whitespace affixWs d)
        (hInPlace digital_sequence_recovery h p).1
        (hInPlace digital_sequence_recovery h p).2).1 ∧
    h0.next ≤ (hFresh (fun d => restore_affix_whitespace affixWs d)
        (hInPlace digital_sequence_recovery h p).1
        (hInPlace digital_sequence_recovery h p).2).2 ∧
    (hFresh (fun d => restore_affix_whitespace affixWs d)
        (hInPlace digital_sequence_recovery h p).1
        (hInPlace digital_sequence_recovery h p).2).1.mem
      (hFresh (fun d => restore_affix_whitespace affixWs d)
        (hInPlace digital_sequence_recovery h p).1
        (hInPlace digital_sequence_recovery h p).2).2 =
      restore_affix_whitespace affixWs
        (digital_sequence_recovery (h.mem p)) := by
  have h3u := hInPlace_untouched digital_sequence_recovery h p hu hp
  refine ⟨untouched_trans h3u (hFresh_untouched _ _ _), ?_, ?_⟩
  · rw [hFresh_addr]
    exact h3u.1
  · simp only [hFresh_get, hInPlace_get]

theorem hRestoreAll_spec (st : ProcState) (cfg : Config) (h : Heap) (a : Nat)
    (prefCodes sufCodes : List (Nat × List AffixCode))
    (po : List (Nat × List PlaceholderRec)) (affixWs : List (Nat × MLInfo)) :
    Untouched h (hRestoreAll st cfg h a prefCodes sufCodes po affixWs).1 ∧
    h.next ≤ (hRestoreAll st cfg h a prefCodes sufCodes po affixWs).2 ∧
    (hRestoreAll st cfg h a prefCodes sufCodes po affixWs).1.mem
        (hRestoreAll st cfg h a prefCodes sufCodes po affixWs).2 =
      restore_all st cfg (h.mem a) prefCodes sufCodes po affixWs := by
  cases hauto : cfg.autoProcessTextCodeSegment with
  | false =>
    cases hpost : cfg.postTranslationSwitch with
    | false =>
      simp only [hRestoreAll, restore_all, hauto, hpost, Bool.false_eq_true,
        if_false]
      set s0 := hFresh (fun d => d) h a with hs0
      have h0u : Untouched h s0.1 := hFresh_untouched _ _ _
      have ht := hRestoreTail_spec affixWs h s0.1 s0.2 h0u
        (by rw [hs0, hFresh_addr])
      refine ⟨ht.1, ht.2.1, ?_⟩
      rw [ht.2.2, hs0, hFresh_get]
    | true =>
      simp only [hRestoreAll, restore_all, hauto, hpost, Bool.false_eq_true,
        if_false, if_true]
      set s0 := hFresh (fun d => d) h a with hs0
      set s2 := hCopyUpdate (fun d => replace_after_translation st.postRules d)
        s0.1 s0.2 with hs2
      have h0u : Untouched h s0.1 := hFresh_untouched _ _ _
      have h2u : Untouched s0.1 s2.1 := hCopyUpdate_untouched _ _ _
      have ht := hRestoreTail_spec affixWs h s2.1 s2.2
        (untouched_trans h0u h2u)
        (by rw [hs2, hCopyUpdate_addr]; exact h0u.1)
      refine ⟨ht.1, ht.2.1, ?_⟩
      rw [ht.2.2, hs2, hCopyUpdate_get, hs0, hFresh_get]
  | true =>
    cases hpost : cfg.postTranslationSwitch with
    | false =>
      simp only [hRestoreAll, restore_all, hauto, hpost, Bool.false_eq_true,
        if_false, if_true]
      set s0 := hFresh (fun d => d) h a with hs0
      set t1 := hFresh (fun d => restore_special_placeholders d po) s0.1 s0.2
        with ht1
      set s1 := hFresh (fun d => restore_affixes d prefCodes sufCodes)
        t1.1 t1.2 with hs1
      have h0u : Untouched h s0.1 := hFresh_untouched _ _ _
      have h1au : Untouched s0.1 t1.1 := hFresh_untouched _ _ _
      have h1bu : Untouched t1.1 s1.1 := hFresh_untouched _ _ _
      have ht := hRestoreTail_spec affixWs h s1.1 s1.2
        (untouched_trans h0u (untouched_trans h1au h1bu))
        (by rw [hs1, hFresh_addr]; exact Nat.le_trans h0u.1 h1au.1)
      refine ⟨ht.1, ht.2.1, ?_⟩
      rw [ht.2.2, hs1, hFresh_get, ht1, hFresh_get, hs0, hFresh_get]
    | true =>
      simp only [hRestoreAll, restore_all, hauto, hpost, Bool.false_eq_true,
        if_false, if_true]
      set s0 := hFresh (fun d => d) h a with hs0
      set t1 := hFresh (fun d => restore_special_placeholders d po) s0.1 s0.2
        with ht1
      set s1 := hFresh (fun d => restore_affixes d prefCodes sufCodes)
        t1.1 t1.2 with hs1
      set s2 := hCopyUpdate (fun d => replace_after_translation st.postRules d)
        s1.1 s1.2 with hs2
      have h0u : Untouched h s0.1 := hFresh_untouched _ _ _
      have h1au : Untouched s0.1 t1.1 := hFresh_untouched _ _ _
      have h1bu : Untouched t1.1 s1.1 := hFresh_untouched _ _ _
      have h2u : Untouched s1.1 s2.1 := hCopyUpdate_untouched _ _ _
      have ht := hRestoreTail_spec affixWs h s2.1 s2.2
        (untouched_trans h0u
          (untouched_trans h1au (untouched_trans h1bu h2u)))
        (by rw [hs2, hCopyUpdate_addr]
            exact Nat.le_trans h0u.1 (Nat.le_trans h1au.1 h1bu.1))
      refine ⟨ht.1, ht.2.1, ?_⟩
      rw [ht.2.2, hs2, hCopyUpdate_get, hs1, hFresh_get, ht1, hFresh_get,
        hs0, hFresh_get]

/-- C9: neither `replace_all` nor `restore_all` mutates the caller's input
dict.  In the heap model (where each stage allocates or writes exactly as
the Python code does, and the digital-sequence stages write in place at the
address they are handed), for every configuration, state, language, records
and heap: the dict at the caller's address `a` is unchanged after either
call, every result is returned at a fresh address, and the dict stored at
the returned address is exactly the value computed by the pure
`replace_all` / `restore_all` on the input dict (so the in-place digital
updates only ever touch internal copies). -/
theorem C9_no_input_mutation (st : ProcState) (cfg : Config) (lang : Str)
    (h : Heap) (a : Nat)
    (prefCodes sufCodes : List (Nat × List AffixCode))
    (po : List (Nat × List PlaceholderRec)) (affixWs : List (Nat × MLInfo))
    (ha : a < h.next) :
    ((hReplaceAll st cfg lang h a).1.1.mem a = h.mem a ∧
     h.next ≤ (hReplaceAll st cfg lang h a).1.2 ∧
     (hReplaceAll st cfg lang h a).1.1.mem (hReplaceAll st cfg lang h a).1.2 =
       (replace_all st cfg lang (h.mem a)).1 ∧
     (hReplaceAll st cfg lang h a).2 = (replace_all st cfg lang (h.mem a)).2) ∧
    ((hRestoreAll st cfg h a prefCodes sufCodes po affixWs).1.mem a =
       h.mem a ∧
     h.next ≤ (hRestoreAll st cfg h a prefCodes sufCodes po affixWs).2 ∧
     (hRestoreAll st cfg h a prefCodes sufCodes po affixWs).1.mem
         (hRestoreAll st cfg h a prefCodes sufCodes po affixWs).2 =
       restore_all st cfg (h.mem a) prefCodes sufCodes po affixWs) := by
  obtain ⟨ru, rb, rg, rr⟩ := hReplaceAll_spec st cfg lang h a
  obtain ⟨su, sb, sg⟩ :=
    hRestoreAll_spec st cfg h a prefCodes sufCodes po affixWs
  exact ⟨⟨ru.2 a ha, rb, rg, rr⟩, ⟨su.2 a ha, sb, sg⟩⟩

theorem C9_no_input_mutation_witness :
    (0 < (⟨fun _ => [(0, "1. x".toList)], 1⟩ : Heap).next) ∧
    ((hReplaceAll ⟨[], [], []⟩ ⟨false, false, false, []⟩ "en".toList
        ⟨fun _ => [(0, "1. x".toList)], 1⟩ 0).1.1.mem 0 =
       (⟨fun _ => [(0, "1. x".toList)], 1⟩ : Heap).mem 0 ∧
     (⟨fun _ => [(0, "1. x".toList)], 1⟩ : Heap).next ≤
       (hReplaceAll ⟨[], [], []⟩ ⟨false, false, false, []⟩ "en".toList
         ⟨fun _ => [(0, "1. x".toList)], 1⟩ 0).1.2 ∧
     (hReplaceAll ⟨[], [], []⟩ ⟨false, false, false, []⟩ "en".toList
        ⟨fun _ => [(0, "1. x".toList)], 1⟩ 0).1.1.mem
       (hReplaceAll ⟨[], [], []⟩ ⟨false, false, false, []⟩ "en".toList
         ⟨fun _ => [(0, "1. x".toList)], 1⟩ 0).1.2 =
       (replace_all ⟨[], [], []⟩ ⟨false, false, false, []⟩ "en".toList
         [(0, "1. x".toList)]).1 ∧
     (hReplaceAll ⟨[], [], []⟩ ⟨false, false, false, []⟩ "en".toList
        ⟨fun _ => [(0, "1. x".toList)], 1⟩ 0).2 =
       (replace_all ⟨[], [], []⟩ ⟨false, false, false, []⟩ "en".toList
         [(0, "1. x".toList)]).2) ∧
    ((hRestoreAll ⟨[], [], []⟩ ⟨false, false, false, []⟩
        ⟨fun _ => [(0, "1. x".toList)], 1⟩ 0 [] [] [] []).1.mem 0 =
       (⟨fun _ => [(0, "1. x".toList)], 1⟩ : Heap).mem 0 ∧
     (⟨fun _ => [(0, "1. x".toList)], 1⟩ : Heap).next ≤
       (hRestoreAll ⟨[], [], []⟩ ⟨false, false, false, []⟩
         ⟨fun _ => [(0, "1. x".toList)], 1⟩ 0 [] [] [] []).2 ∧
     (hRestoreAll ⟨[], [], []⟩ ⟨false, false, false, []⟩
        ⟨fun _ => [(0, "1. x".toList)], 1⟩ 0 [] [] [] []).1.mem
       (hRestoreAll ⟨[], [], []⟩ ⟨false, false, false, []⟩
         ⟨fun _ => [(0, "1. x".toList)], 1⟩ 0 [] [] [] []).2 =
       restore_all ⟨[], [], []⟩ ⟨false, false, false, []⟩
         [(0, "1. x".toList)] [] [] [] []) :=
  ⟨Nat.zero_lt_one,
   C9_no_input_mutation ⟨[], [], []⟩ ⟨false, false, false, []⟩ "en".toList
     ⟨fun _ => [(0, "1. x".toList)], 1⟩ 0 [] [] [] [] Nat.zero_lt_one⟩

end TextProc
